import Mathlib

/-!
Shallow embedding of `src/parking/__main__.py`: a sliding-block ("parking")
puzzle on a 5×5 grid.  Cells hold `0`, `"h"` or `"v"`; `Game.find_cars`
reconstructs car entities by an axis-restricted depth-first search;
`Game._move_up` / `Game._move_down` mutate the board; `Game.move` is `pass`.

Python's list indexing (negative indices wrap once from the end, other
out-of-range indices raise `IndexError`) is modelled by `pyNormIdx`:
writes and reads through it return `Option`, `none` standing for the raised
`IndexError`.
-/

/-- A board cell: `0` (empty), `"h"` (horizontal car part) or `"v"`
(vertical car part). -/
inductive Cell
  | empty
  | h
  | v
deriving DecidableEq, Repr

/-- The board, a list of rows, as Python's list of lists. -/
abbrev Board := List (List Cell)

/-- Car orientation, the Python strings `"horizontal"` / `"vertical"`. -/
inductive Orient
  | horizontal
  | vertical
deriving DecidableEq, Repr

/-- `Car` of the source: start position, end position, orientation, and the
length computed at construction by `Car._calculate_length`. -/
structure Car where
  start_pos : Nat × Nat
  end_pos : Nat × Nat
  car_orient : Orient
  length : Int
deriving DecidableEq, Repr

/-- `Car.__init__`: stores the fields and computes `length` as
`end - start + 1` along the orientation axis (`Car._calculate_length`). -/
def Car.make (s e : Nat × Nat) (o : Orient) : Car :=
  { start_pos := s
    end_pos := e
    car_orient := o
    length :=
      match o with
      | Orient.horizontal => (e.2 : Int) - (s.2 : Int) + 1
      | Orient.vertical => (e.1 : Int) - (s.1 : Int) + 1 }

/-- `ESTADO_INICIAL`: vertical car at (1,2)-(2,2), horizontal car at
(4,3)-(4,4). -/
def ESTADO_INICIAL : Board :=
  [[Cell.empty, Cell.empty, Cell.empty, Cell.empty, Cell.empty],
   [Cell.empty, Cell.empty, Cell.v, Cell.empty, Cell.empty],
   [Cell.empty, Cell.empty, Cell.v, Cell.empty, Cell.empty],
   [Cell.empty, Cell.empty, Cell.empty, Cell.empty, Cell.empty],
   [Cell.empty, Cell.empty, Cell.empty, Cell.h, Cell.h]]

/-- `ESTADO_OBJETIVO`: the goal board, horizontal car at (2,3)-(2,4). -/
def ESTADO_OBJETIVO : Board :=
  [[Cell.empty, Cell.empty, Cell.empty, Cell.empty, Cell.empty],
   [Cell.empty, Cell.empty, Cell.empty, Cell.empty, Cell.empty],
   [Cell.empty, Cell.empty, Cell.empty, Cell.h, Cell.h],
   [Cell.empty, Cell.empty, Cell.empty, Cell.empty, Cell.empty],
   [Cell.empty, Cell.empty, Cell.empty, Cell.empty, Cell.empty]]

/-- Read `board[r][c]` for in-range nonnegative indices; cells outside the
stored lists read as empty.  The source only reads after checking
`0 <= r,c < board_dimension` against an `N×N` board, where this coincides
with Python. -/
def getCell (b : Board) (r c : Nat) : Cell :=
  (b.getD r []).getD c Cell.empty

/-- Read `visited[r][c]`; the source only reads in range on an `N×N` grid. -/
def getVisited (vis : List (List Bool)) (r c : Nat) : Bool :=
  (vis.getD r []).getD c false

/-- `visited[r][c] = True`. -/
def setVisited (vis : List (List Bool)) (r c : Nat) : List (List Bool) :=
  vis.set r ((vis.getD r []).set c true)

/-- Python index normalisation for a list of length `len`: indices in
`[0, len)` stand as given, indices in `[-len, 0)` wrap from the end, the
rest raise `IndexError` (`none`). -/
def pyNormIdx (len : Nat) (i : Int) : Option Nat :=
  if 0 ≤ i then
    if i < (len : Int) then some i.toNat else none
  else
    if 0 ≤ i + (len : Int) then some (i + (len : Int)).toNat else none

/-- Python `xs[i]` with negative-index wraparound. -/
def pyGetList {α : Type} (xs : List α) (i : Int) : Option α :=
  match pyNormIdx xs.length i with
  | some k => xs.get? k
  | none => none

/-- Python `xs[i] = x` with negative-index wraparound. -/
def pySetList {α : Type} (xs : List α) (i : Int) (x : α) : Option (List α) :=
  match pyNormIdx xs.length i with
  | some k => some (xs.set k x)
  | none => none

/-- Python `board[r][c] = x` with negative-index wraparound on each axis. -/
def pySet (b : Board) (r c : Int) (x : Cell) : Option Board :=
  match pyNormIdx b.length r with
  | some k =>
    match pySetList (b.getD k []) c x with
    | some row => some (b.set k row)
    | none => none
  | none => none

/-- The stack-based depth-first search of `Game.find_cars`: pop a
coordinate, skip it when out of bounds, already visited or not of
`car_type`, otherwise mark it, collect it, and push its two neighbours
along the orientation axis (`c±1` for horizontal, `r±1` for vertical;
Python pushes the positive neighbour first, so the negative one is on
top).  `fuel` bounds the number of loop iterations; `scanFuel` below is
enough for the search to drain its stack. -/
def dfsLoop (n : Nat) (board : Board) (car_type : Cell) (o : Orient) :
    Nat → List (Int × Int) → List (List Bool) → List (Nat × Nat) →
    List (List Bool) × List (Nat × Nat)
  | 0, _, vis, parts => (vis, parts)
  | _ + 1, [], vis, parts => (vis, parts)
  | fuel + 1, (r, c) :: rest, vis, parts =>
    if 0 ≤ r ∧ r < (n : Int) ∧ 0 ≤ c ∧ c < (n : Int) then
      let rn := r.toNat
      let cn := c.toNat
      if getVisited vis rn cn = true ∨ getCell board rn cn ≠ car_type then
        dfsLoop n board car_type o fuel rest vis parts
      else
        let vis2 := setVisited vis rn cn
        let parts2 := parts ++ [(rn, cn)]
        let stack2 :=
          match o with
          | Orient.horizontal => (r, c - 1) :: (r, c + 1) :: rest
          | Orient.vertical => (r - 1, c) :: (r + 1, c) :: rest
        dfsLoop n board car_type o fuel stack2 vis2 parts2
    else
      dfsLoop n board car_type o fuel rest vis parts

/-- Enough fuel for `dfsLoop`: each marked cell pushes two entries, so at
most `1 + 2·n²` pops ever happen. -/
def scanFuel (n : Nat) : Nat := 2 * n * n + 1

/-- The cells `(r, c)` of an `n×n` grid in row-major order, as the two
nested `for` loops of `Game.find_cars`. -/
def cellList (n : Nat) : List (Nat × Nat) :=
  (List.range n).flatMap (fun r => (List.range n).map (fun c => (r, c)))

/-- One iteration of the outer scan loop of `Game.find_cars`: on an
unvisited occupied cell, decide the orientation from the marker
(`"h"` ⇒ horizontal, else vertical) and run the depth-first search,
recording the group of collected parts. -/
def scanStep (n : Nat) (board : Board)
    (st : List (List Bool) × List (Cell × Orient × List (Nat × Nat)))
    (rc : Nat × Nat) :
    List (List Bool) × List (Cell × Orient × List (Nat × Nat)) :=
  let r := rc.1
  let c := rc.2
  if getCell board r c ≠ Cell.empty ∧ getVisited st.1 r c = false then
    let car_type := getCell board r c
    let o := if car_type = Cell.h then Orient.horizontal else Orient.vertical
    let res := dfsLoop n board car_type o (scanFuel n) [((r : Int), (c : Int))] st.1 []
    (res.1, st.2 ++ [(car_type, o, res.2)])
  else st

/-- The scan of `Game.find_cars` up to car construction: the groups of
parts found, each with its marker type and orientation, in discovery
order. -/
def scan_groups (n : Nat) (board : Board) :
    List (Cell × Orient × List (Nat × Nat)) :=
  ((cellList n).foldl (scanStep n board)
    (List.replicate n (List.replicate n false), [])).2

/-- `if car_parts:` followed by the `Car` construction of
`Game.find_cars`: `start` is the component-wise minimum of the parts,
`end` the component-wise maximum. -/
def mkCarFromParts (o : Orient) (parts : List (Nat × Nat)) : Option Car :=
  match parts with
  | [] => none
  | p :: ps =>
    some (Car.make
      (ps.foldl (fun m q => min m q.1) p.1, ps.foldl (fun m q => min m q.2) p.2)
      (ps.foldl (fun m q => max m q.1) p.1, ps.foldl (fun m q => max m q.2) p.2)
      o)

/-- `Game.find_cars` as a function of the board: the ordered car list. -/
def find_cars (n : Nat) (board : Board) : List Car :=
  (scan_groups n board).filterMap (fun g => mkCarFromParts g.2.1 g.2.2)

/-- The mutable state of `Game`: dimension, board, cached car list. -/
structure GameState where
  board_dimension : Nat
  board : Board
  cars : List Car
deriving DecidableEq, Repr

/-- `Game.__init__`: board set to `ESTADO_INICIAL`, empty car list. -/
def Game.init (board_dimension : Nat) : GameState :=
  { board_dimension := board_dimension, board := ESTADO_INICIAL, cars := [] }

/-- The method `Game.find_cars` as a state transformer: rebuild the cached
car list from the current board (the spec's `refresh()`). -/
def Game.refresh (s : GameState) : GameState :=
  { s with cars := find_cars s.board_dimension s.board }

/-- The board mutation of `Game._move_up`.  Horizontal branch: for each
column `j` of the car, `board[i][j] = 0` then `board[i-1][j] = "h"`.
Vertical branch: clear `board[i][j]` for every row of the car, then write
`board[i-1][j] = "v"` for every row.  No bounds, collision or orientation
check is performed; `board[-1]` wraps to the last row as in Python. -/
def moveUpBoard (board : Board) (car : Car) : Option Board :=
  match car.car_orient with
  | Orient.horizontal =>
    let i := car.start_pos.1
    let start_j := car.start_pos.2
    let end_j := car.end_pos.2
    (List.range' start_j (end_j + 1 - start_j)).foldl
      (fun ob j =>
        (ob.bind (fun b => pySet b (i : Int) (j : Int) Cell.empty)).bind
          (fun b => pySet b ((i : Int) - 1) (j : Int) Cell.h))
      (some board)
  | Orient.vertical =>
    let start_i := car.start_pos.1
    let j := car.start_pos.2
    let end_i := car.end_pos.1
    let rows := List.range' start_i (end_i + 1 - start_i)
    let cleared := rows.foldl
      (fun ob i => ob.bind (fun b => pySet b (i : Int) (j : Int) Cell.empty))
      (some board)
    rows.foldl
      (fun ob i => ob.bind (fun b => pySet b ((i : Int) - 1) (j : Int) Cell.v))
      cleared

/-- The board mutation of `Game._move_down`.  Horizontal branch: with
`end_i = start_i + 1`, for each column `j`, `board[start_i][j] = 0` then
`board[end_i][j] = "h"`.  Vertical branch: clear every row of the car,
then write `board[i+1][j] = "v"` for every row.  As in the source, no
validation is performed. -/
def moveDownBoard (board : Board) (car : Car) : Option Board :=
  match car.car_orient with
  | Orient.horizontal =>
    let start_i := car.start_pos.1
    let end_i := start_i + 1
    let start_j := car.start_pos.2
    let end_j := car.end_pos.2
    (List.range' start_j (end_j + 1 - start_j)).foldl
      (fun ob j =>
        (ob.bind (fun b => pySet b (start_i : Int) (j : Int) Cell.empty)).bind
          (fun b => pySet b (end_i : Int) (j : Int) Cell.h))
      (some board)
  | Orient.vertical =>
    let start_i := car.start_pos.1
    let j := car.start_pos.2
    let end_i := car.end_pos.1
    let rows := List.range' start_i (end_i + 1 - start_i)
    let cleared := rows.foldl
      (fun ob i => ob.bind (fun b => pySet b (i : Int) (j : Int) Cell.empty))
      (some board)
    rows.foldl
      (fun ob i => ob.bind (fun b => pySet b ((i : Int) + 1) (j : Int) Cell.v))
      cleared

/-- `Game._move_up(car_num)`: fetch `self.cars[car_num - 1]` (Python
indexing, so `car_num = 0` wraps to the last car) and apply the unvalidated
board mutation; `none` models a raised `IndexError`. -/
def Game.move_up (s : GameState) (car_num : Int) : Option GameState :=
  (pyGetList s.cars (car_num - 1)).bind (fun car =>
    (moveUpBoard s.board car).map (fun b => { s with board := b }))

/-- `Game._move_down(car_num)`: as `Game.move_up` with the downward
mutation.  The `print(car)` of the source is I/O only and is dropped. -/
def Game.move_down (s : GameState) (car_num : Int) : Option GameState :=
  (pyGetList s.cars (car_num - 1)).bind (fun car =>
    (moveDownBoard s.board car).map (fun b => { s with board := b }))

/-- The four directions of `Game.move`'s signature. -/
inductive Direction
  | up
  | down
  | left
  | right
deriving DecidableEq, Repr

/-- `Game.move(car_idx, direction)`: the body is `pass`, so the call
returns Python's `None` (modelled `none`) and the state is untouched. -/
def Game.move (s : GameState) (car_idx : Int) (d : Direction) :
    Option Unit × GameState :=
  (none, s)

/-- Modelled from the spec: the source defines only the goal board
`ESTADO_OBJETIVO`; no `isSolved` function exists under `src/`.  Spec
§4.2/§8: solved iff every cell of the fixed target region (row 2,
columns 3–4) carries the designated car's horizontal marker. -/
def isSolved (b : Board) : Bool :=
  decide (getCell b 2 3 = Cell.h ∧ getCell b 2 4 = Cell.h)

/-- Modelled from the spec's words, for comparison with the source scan
(refinement): a depth-first search over all four 4-connected neighbours,
restricted to cells bearing the same marker type. -/
def dfsLoop4 (n : Nat) (board : Board) (car_type : Cell) :
    Nat → List (Int × Int) → List (List Bool) → List (Nat × Nat) →
    List (List Bool) × List (Nat × Nat)
  | 0, _, vis, parts => (vis, parts)
  | _ + 1, [], vis, parts => (vis, parts)
  | fuel + 1, (r, c) :: rest, vis, parts =>
    if 0 ≤ r ∧ r < (n : Int) ∧ 0 ≤ c ∧ c < (n : Int) then
      let rn := r.toNat
      let cn := c.toNat
      if getVisited vis rn cn = true ∨ getCell board rn cn ≠ car_type then
        dfsLoop4 n board car_type fuel rest vis parts
      else
        let vis2 := setVisited vis rn cn
        let parts2 := parts ++ [(rn, cn)]
        let stack2 :=
          (r, c - 1) :: (r, c + 1) :: (r - 1, c) :: (r + 1, c) :: rest
        dfsLoop4 n board car_type fuel stack2 vis2 parts2
    else
      dfsLoop4 n board car_type fuel rest vis parts

/-- Modelled from the spec's words (refinement): the maximal 4-connected
same-marker groups of the board, in row-major discovery order. -/
def spec_scan_groups4 (n : Nat) (board : Board) : List (List (Nat × Nat)) :=
  ((cellList n).foldl
    (fun st rc =>
      if getCell board rc.1 rc.2 ≠ Cell.empty ∧ getVisited st.1 rc.1 rc.2 = false then
        let car_type := getCell board rc.1 rc.2
        let res := dfsLoop4 n board car_type (4 * n * n + 1)
          [((rc.1 : Int), (rc.2 : Int))] st.1 []
        (res.1, st.2 ++ [res.2])
      else st)
    (List.replicate n (List.replicate n false),
      ([] : List (List (Nat × Nat))))).2

/-- Scenario B board: vertical car at (0,2)-(1,2) (its top at row 0),
horizontal car at (4,3)-(4,4). -/
def boardB : Board :=
  [[Cell.empty, Cell.empty, Cell.v, Cell.empty, Cell.empty],
   [Cell.empty, Cell.empty, Cell.v, Cell.empty, Cell.empty],
   [Cell.empty, Cell.empty, Cell.empty, Cell.empty, Cell.empty],
   [Cell.empty, Cell.empty, Cell.empty, Cell.empty, Cell.empty],
   [Cell.empty, Cell.empty, Cell.empty, Cell.h, Cell.h]]

/-- What `_move_up` actually produces on `boardB`'s vertical car: the top
cell's write lands at Python index `-1`, i.e. row 4. -/
def boardB_after : Board :=
  [[Cell.empty, Cell.empty, Cell.v, Cell.empty, Cell.empty],
   [Cell.empty, Cell.empty, Cell.empty, Cell.empty, Cell.empty],
   [Cell.empty, Cell.empty, Cell.empty, Cell.empty, Cell.empty],
   [Cell.empty, Cell.empty, Cell.empty, Cell.empty, Cell.empty],
   [Cell.empty, Cell.empty, Cell.v, Cell.h, Cell.h]]

/-- What `_move_up` produces on the initial board's horizontal car: the
whole car shifted one row up. -/
def boardA_up2 : Board :=
  [[Cell.empty, Cell.empty, Cell.empty, Cell.empty, Cell.empty],
   [Cell.empty, Cell.empty, Cell.v, Cell.empty, Cell.empty],
   [Cell.empty, Cell.empty, Cell.v, Cell.empty, Cell.empty],
   [Cell.empty, Cell.empty, Cell.empty, Cell.h, Cell.h],
   [Cell.empty, Cell.empty, Cell.empty, Cell.empty, Cell.empty]]

/-- Collision board: horizontal car at (1,2)-(1,3) directly above a
vertical car at (2,2)-(3,2), zero gap. -/
def boardC3 : Board :=
  [[Cell.empty, Cell.empty, Cell.empty, Cell.empty, Cell.empty],
   [Cell.empty, Cell.empty, Cell.h, Cell.h, Cell.empty],
   [Cell.empty, Cell.empty, Cell.v, Cell.empty, Cell.empty],
   [Cell.empty, Cell.empty, Cell.v, Cell.empty, Cell.empty],
   [Cell.empty, Cell.empty, Cell.empty, Cell.empty, Cell.empty]]

/-- What `_move_up` produces on `boardC3`'s vertical car: its marker is
written over cell (1,2), which belonged to the horizontal car. -/
def boardC3_after : Board :=
  [[Cell.empty, Cell.empty, Cell.empty, Cell.empty, Cell.empty],
   [Cell.empty, Cell.empty, Cell.v, Cell.h, Cell.empty],
   [Cell.empty, Cell.empty, Cell.v, Cell.empty, Cell.empty],
   [Cell.empty, Cell.empty, Cell.empty, Cell.empty, Cell.empty],
   [Cell.empty, Cell.empty, Cell.empty, Cell.empty, Cell.empty]]

/-- Two horizontal-marker cells stacked vertically: one maximal
4-connected same-marker component. -/
def boardC5 : Board :=
  [[Cell.h, Cell.empty, Cell.empty, Cell.empty, Cell.empty],
   [Cell.h, Cell.empty, Cell.empty, Cell.empty, Cell.empty],
   [Cell.empty, Cell.empty, Cell.empty, Cell.empty, Cell.empty],
   [Cell.empty, Cell.empty, Cell.empty, Cell.empty, Cell.empty],
   [Cell.empty, Cell.empty, Cell.empty, Cell.empty, Cell.empty]]

/-- The freshly scanned initial game (scenario A). -/
def gameA : GameState := Game.refresh (Game.init 5)

/-- The freshly scanned scenario-B game. -/
def gameB : GameState :=
  Game.refresh { board_dimension := 5, board := boardB, cars := [] }

/-- The freshly scanned collision game. -/
def gameC3 : GameState :=
  Game.refresh { board_dimension := 5, board := boardC3, cars := [] }

/-- A group emitted by the scan is well formed: its orientation is the one
the scan derives from its marker type, and every collected cell bears that
marker and lies inside the `n×n` grid. -/
def GroupOk (n : Nat) (board : Board)
    (g : Cell × Orient × List (Nat × Nat)) : Prop :=
  g.2.1 = (if g.1 = Cell.h then Orient.horizontal else Orient.vertical) ∧
  ∀ p ∈ g.2.2, getCell board p.1 p.2 = g.1 ∧ p.1 < n ∧ p.2 < n



/-- `dfsLoop` instrumented with the fuel left over when its stack drains;
step for step the same computation, used to reason about the search
compositionally.  `dfsLoop` is its first projection
(`dfsLoop_eq_dfsLoopF`). -/
def dfsLoopF (n : Nat) (board : Board) (car_type : Cell) (o : Orient) :
    Nat → List (Int × Int) → List (List Bool) → List (Nat × Nat) →
    (List (List Bool) × List (Nat × Nat)) × Nat
  | 0, _, vis, parts => ((vis, parts), 0)
  | fuel + 1, [], vis, parts => ((vis, parts), fuel + 1)
  | fuel + 1, (r, c) :: rest, vis, parts =>
    if 0 ≤ r ∧ r < (n : Int) ∧ 0 ≤ c ∧ c < (n : Int) then
      let rn := r.toNat
      let cn := c.toNat
      if getVisited vis rn cn = true ∨ getCell board rn cn ≠ car_type then
        dfsLoopF n board car_type o fuel rest vis parts
      else
        let vis2 := setVisited vis rn cn
        let parts2 := parts ++ [(rn, cn)]
        let stack2 :=
          match o with
          | Orient.horizontal => (r, c - 1) :: (r, c + 1) :: rest
          | Orient.vertical => (r - 1, c) :: (r + 1, c) :: rest
        dfsLoopF n board car_type o fuel stack2 vis2 parts2
    else
      dfsLoopF n board car_type o fuel rest vis parts

/-- The search, started on `stack` on top of any continuation `S`,
consumes exactly `k` fuel to exhaust `stack`'s own work, turning the
state `(vis, parts)` into `(vis2, parts2)` and leaving `S` untouched.
This continuation-passing form composes along `++`. -/
def DfsRuns (n : Nat) (board : Board) (t : Cell) (o : Orient)
    (stack : List (Int × Int)) (vis : List (List Bool))
    (parts : List (Nat × Nat)) (vis2 : List (List Bool))
    (parts2 : List (Nat × Nat)) (k : Nat) : Prop :=
  ∀ (fuel : Nat) (S : List (Int × Int)),
    dfsLoopF n board t o (fuel + k) (stack ++ S) vis parts =
      dfsLoopF n board t o fuel S vis2 parts2

/-- Mark a list of rows of one column visited, in order. -/
def markRows (vis : List (List Bool)) (rows : List Nat) (c : Nat) :
    List (List Bool) :=
  rows.foldl (fun v i => setVisited v i c) vis

/-- Mark a list of columns of one row visited, in order. -/
def markCols (vis : List (List Bool)) (r : Nat) (cols : List Nat) :
    List (List Bool) :=
  cols.foldl (fun v j => setVisited v r j) vis

/-- The lower end of the maximal `t`-run of the line `f` ending at a
given index: walk down while the previous cell carries `t`. -/
def runLoAux (f : Nat → Cell) (t : Cell) : Nat → Nat
  | 0 => 0
  | i + 1 => if f i = t then runLoAux f t i else i + 1

/-- The upper end of the maximal `t`-run of the line `f` starting at a
given index, extended at most `fuel` cells: walk up while the next cell
carries `t`. -/
def runHiAux (f : Nat → Cell) (t : Cell) : Nat → Nat → Nat
  | 0, i => i
  | fuel + 1, i => if f (i + 1) = t then runHiAux f t fuel (i + 1) else i

/-- The indices of the run `[lo, hi]` in the order the search discovers
them from seed `x0`: the seed, then downward `x0-1 … lo`, then upward
`x0+1 … hi`. -/
def runCells (lo hi x0 : Nat) : List Nat :=
  (x0 :: (List.range' lo (x0 - lo)).reverse) ++ List.range' (x0 + 1) (hi - x0)

/-- A well-formed `n×n` visited grid. -/
def VisWf (n : Nat) (vis : List (List Bool)) : Prop :=
  vis.length = n ∧ ∀ i, i < n → (vis.getD i []).length = n

/-- `parts` is exactly a maximal vertical `t`-run of the board: all of
column `c`, rows `lo … hi`, carry `t`, the run is inextensible at both
ends, and `parts` lists exactly those cells (in discovery order from some
seed row), so membership, cell count and the constructed `Car` are fully
determined. -/
def IsMaxVGroup (n : Nat) (board : Board) (t : Cell)
    (parts : List (Nat × Nat)) : Prop :=
  ∃ c lo hi r0, c < n ∧ hi < n ∧ lo ≤ r0 ∧ r0 ≤ hi ∧
    (∀ i, lo ≤ i → i ≤ hi → getCell board i c = t) ∧
    (lo = 0 ∨ getCell board (lo - 1) c ≠ t) ∧
    (hi + 1 = n ∨ getCell board (hi + 1) c ≠ t) ∧
    parts = (runCells lo hi r0).map (fun i => (i, c)) ∧
    (∀ p : Nat × Nat, p ∈ parts ↔ (p.2 = c ∧ lo ≤ p.1 ∧ p.1 ≤ hi)) ∧
    parts.length = hi + 1 - lo ∧
    mkCarFromParts Orient.vertical parts =
      some (Car.make (lo, c) (hi, c) Orient.vertical)

/-- `parts` is exactly a maximal horizontal `t`-run of the board:
the mirror of `IsMaxVGroup` along row `r`, columns `lo … hi`. -/
def IsMaxHGroup (n : Nat) (board : Board) (t : Cell)
    (parts : List (Nat × Nat)) : Prop :=
  ∃ r lo hi c0, r < n ∧ hi < n ∧ lo ≤ c0 ∧ c0 ≤ hi ∧
    (∀ j, lo ≤ j → j ≤ hi → getCell board r j = t) ∧
    (lo = 0 ∨ getCell board r (lo - 1) ≠ t) ∧
    (hi + 1 = n ∨ getCell board r (hi + 1) ≠ t) ∧
    parts = (runCells lo hi c0).map (fun j => (r, j)) ∧
    (∀ p : Nat × Nat, p ∈ parts ↔ (p.1 = r ∧ lo ≤ p.2 ∧ p.2 ≤ hi)) ∧
    parts.length = hi + 1 - lo ∧
    mkCarFromParts Orient.horizontal parts =
      some (Car.make (r, lo) (r, hi) Orient.horizontal)

/-- An emitted group is exactly a maximal same-marker run along the axis
its marker dictates: a non-empty marker, the orientation the scan derives
from it, and the exact maximal run along that orientation's axis. -/
def MaxRunGroup (n : Nat) (board : Board)
    (g : Cell × Orient × List (Nat × Nat)) : Prop :=
  g.1 ≠ Cell.empty ∧
  g.2.1 = (if g.1 = Cell.h then Orient.horizontal else Orient.vertical) ∧
  match g.2.1 with
  | Orient.vertical => IsMaxVGroup n board g.1 g.2.2
  | Orient.horizontal => IsMaxHGroup n board g.1 g.2.2

/-- Invariant of the outer scan loop: the visited grid is well formed,
every emitted group is exactly a maximal axis run, and a cell is visited
exactly when some emitted group contains it. -/
def ScanInv (n : Nat) (board : Board)
    (st : List (List Bool) × List (Cell × Orient × List (Nat × Nat))) :
    Prop :=
  VisWf n st.1 ∧
  (∀ g ∈ st.2, MaxRunGroup n board g) ∧
  (∀ i j : Nat, getVisited st.1 i j = true ↔ ∃ g ∈ st.2, (i, j) ∈ g.2.2)

/-- Every part collected by the depth-first search bears the searched
marker type and lies inside the grid, provided the parts already
collected do. -/
theorem dfsLoop_parts_ok (n : Nat) (board : Board) (t : Cell) (o : Orient)
    (fuel : Nat) :
    ∀ (stack : List (Int × Int)) (vis : List (List Bool))
      (parts : List (Nat × Nat)),
      (∀ p ∈ parts, getCell board p.1 p.2 = t ∧ p.1 < n ∧ p.2 < n) →
      ∀ p ∈ (dfsLoop n board t o fuel stack vis parts).2,
        getCell board p.1 p.2 = t ∧ p.1 < n ∧ p.2 < n := by
  induction fuel with
  | zero =>
    intro stack vis parts hp
    simpa [dfsLoop] using hp
  | succ fuel ih =>
    intro stack vis parts hp
    match stack with
    | [] => simpa [dfsLoop] using hp
    | (r, c) :: rest =>
      simp only [dfsLoop]
      split
      · rename_i hb
        split
        · exact ih rest vis parts hp
        · rename_i hskip
          push_neg at hskip
          apply ih
          intro p hmem
          rcases List.mem_append.mp hmem with h1 | h2
          · exact hp p h1
          · have hpz : p = (r.toNat, c.toNat) := by simpa using h2
            subst hpz
            refine ⟨hskip.2, ?_, ?_⟩ <;> omega
      · exact ih rest vis parts hp

/-- One outer scan iteration preserves well-formedness of all recorded
groups: any group it appends comes from a fresh depth-first search on the
cell's own marker type. -/
theorem scanStep_groups_ok (n : Nat) (board : Board)
    (st : List (List Bool) × List (Cell × Orient × List (Nat × Nat)))
    (rc : Nat × Nat)
    (hst : ∀ g ∈ st.2, GroupOk n board g) :
    ∀ g ∈ (scanStep n board st rc).2, GroupOk n board g := by
  intro g hg
  simp only [scanStep] at hg
  split at hg
  · rcases List.mem_append.mp hg with h1 | h2
    · exact hst g h1
    · have hgz :
        g = (getCell board rc.1 rc.2,
          (if getCell board rc.1 rc.2 = Cell.h then Orient.horizontal
            else Orient.vertical),
          (dfsLoop n board (getCell board rc.1 rc.2)
            (if getCell board rc.1 rc.2 = Cell.h then Orient.horizontal
              else Orient.vertical)
            (scanFuel n) [((rc.1 : Int), (rc.2 : Int))] st.1 []).2) := by
        simpa using h2
      subst hgz
      refine ⟨rfl, ?_⟩
      exact dfsLoop_parts_ok n board _ _ (scanFuel n)
        [((rc.1 : Int), (rc.2 : Int))] st.1 [] (by simp)
  · exact hst g hg

/-- Folding the outer scan over any cell list preserves group
well-formedness. -/
theorem foldl_scanStep_ok (n : Nat) (board : Board) :
    ∀ (l : List (Nat × Nat))
      (st : List (List Bool) × List (Cell × Orient × List (Nat × Nat))),
      (∀ g ∈ st.2, GroupOk n board g) →
      ∀ g ∈ (l.foldl (scanStep n board) st).2, GroupOk n board g := by
  intro l
  induction l with
  | nil => intro st hst; simpa using hst
  | cons x xs ih =>
    intro st hst
    exact ih (scanStep n board st x) (scanStep_groups_ok n board st x hst)

/-- Every group the scan of `Game.find_cars` emits is well formed. -/
theorem scan_groups_ok (n : Nat) (board : Board) :
    ∀ g ∈ scan_groups n board, GroupOk n board g := by
  intro g hg
  exact foldl_scanStep_ok n board (cellList n) _ (by simp) g hg

/-- On an empty stack the instrumented search returns its state and all
its fuel. -/
theorem dfsLoopF_nil (n : Nat) (board : Board) (t : Cell) (o : Orient)
    (fuel : Nat) (vis : List (List Bool)) (parts : List (Nat × Nat)) :
    dfsLoopF n board t o fuel [] vis parts = ((vis, parts), fuel) := by
  cases fuel <;> rfl

/-- The search is the first projection of its instrumented form. -/
theorem dfsLoop_eq_dfsLoopF (n : Nat) (board : Board) (t : Cell)
    (o : Orient) :
    ∀ (fuel : Nat) (stack : List (Int × Int)) (vis : List (List Bool))
      (parts : List (Nat × Nat)),
      dfsLoop n board t o fuel stack vis parts =
        (dfsLoopF n board t o fuel stack vis parts).1 := by
  intro fuel
  induction fuel with
  | zero => intro stack vis parts; rfl
  | succ fuel ih =>
    intro stack vis parts
    match stack with
    | [] => rfl
    | (r, c) :: rest =>
      simp only [dfsLoop, dfsLoopF]
      split
      · split
        · exact ih rest vis parts
        · exact ih _ _ _
      · exact ih rest vis parts

/-- Two runs compose along stack concatenation, adding their costs. -/
theorem dfsRuns_append (n : Nat) (board : Board) (t : Cell) (o : Orient)
    (S1 S2 : List (Int × Int)) (vis parts vis1 parts1 vis2 parts2)
    (k1 k2 : Nat)
    (h1 : DfsRuns n board t o S1 vis parts vis1 parts1 k1)
    (h2 : DfsRuns n board t o S2 vis1 parts1 vis2 parts2 k2) :
    DfsRuns n board t o (S1 ++ S2) vis parts vis2 parts2 (k1 + k2) := by
  intro fuel S
  have e : fuel + (k1 + k2) = (fuel + k2) + k1 := by omega
  rw [e, List.append_assoc, h1 (fuel + k2) (S2 ++ S), h2 fuel S]

/-- A dead stack cell (out of bounds, already visited, or of the wrong
marker) is skipped at the cost of one fuel, leaving the state alone. -/
theorem dfsRuns_dead (n : Nat) (board : Board) (t : Cell) (o : Orient)
    (r c : Int) (vis : List (List Bool)) (parts : List (Nat × Nat))
    (hdead : ¬(0 ≤ r ∧ r < (n : Int) ∧ 0 ≤ c ∧ c < (n : Int)) ∨
      getVisited vis r.toNat c.toNat = true ∨
      getCell board r.toNat c.toNat ≠ t) :
    DfsRuns n board t o [(r, c)] vis parts vis parts 1 := by
  intro fuel S
  show dfsLoopF n board t o (fuel + 1) ((r, c) :: S) vis parts = _
  simp only [dfsLoopF]
  by_cases hb : 0 ≤ r ∧ r < (n : Int) ∧ 0 ≤ c ∧ c < (n : Int)
  · rcases hdead with hnb | hv
    · exact absurd hb hnb
    · rw [if_pos hb, if_pos hv]
  · rw [if_neg hb]

/-- Collecting an in-bounds, unvisited cell of the right marker during a
vertical search: mark it, record it, and continue on its two vertical
neighbours. -/
theorem dfsRuns_collect_v (n : Nat) (board : Board) (t : Cell)
    (rn cn : Nat) (vis : List (List Bool)) (parts : List (Nat × Nat))
    (vis2 parts2) (k : Nat) (hr : rn < n) (hc : cn < n)
    (hv : getVisited vis rn cn = false) (hm : getCell board rn cn = t)
    (hrec : DfsRuns n board t Orient.vertical
      [((rn : Int) - 1, (cn : Int)), ((rn : Int) + 1, (cn : Int))]
      (setVisited vis rn cn) (parts ++ [(rn, cn)]) vis2 parts2 k) :
    DfsRuns n board t Orient.vertical [((rn : Int), (cn : Int))] vis parts
      vis2 parts2 (k + 1) := by
  intro fuel S
  show dfsLoopF _ _ _ _ ((fuel + k) + 1) (((rn : Int), (cn : Int)) :: S)
    _ _ = _
  simp only [dfsLoopF]
  rw [if_pos (by omega : 0 ≤ (rn : Int) ∧ (rn : Int) < (n : Int) ∧
    0 ≤ (cn : Int) ∧ (cn : Int) < (n : Int))]
  simp only [Int.toNat_natCast]
  rw [if_neg (by simp [hv, hm])]
  exact hrec fuel S

/-- Collecting a cell during a horizontal search: continue on its two
horizontal neighbours. -/
theorem dfsRuns_collect_h (n : Nat) (board : Board) (t : Cell)
    (rn cn : Nat) (vis : List (List Bool)) (parts : List (Nat × Nat))
    (vis2 parts2) (k : Nat) (hr : rn < n) (hc : cn < n)
    (hv : getVisited vis rn cn = false) (hm : getCell board rn cn = t)
    (hrec : DfsRuns n board t Orient.horizontal
      [((rn : Int), (cn : Int) - 1), ((rn : Int), (cn : Int) + 1)]
      (setVisited vis rn cn) (parts ++ [(rn, cn)]) vis2 parts2 k) :
    DfsRuns n board t Orient.horizontal [((rn : Int), (cn : Int))] vis
      parts vis2 parts2 (k + 1) := by
  intro fuel S
  show dfsLoopF _ _ _ _ ((fuel + k) + 1) (((rn : Int), (cn : Int)) :: S)
    _ _ = _
  simp only [dfsLoopF]
  rw [if_pos (by omega : 0 ≤ (rn : Int) ∧ (rn : Int) < (n : Int) ∧
    0 ≤ (cn : Int) ∧ (cn : Int) < (n : Int))]
  simp only [Int.toNat_natCast]
  rw [if_neg (by simp [hv, hm])]
  exact hrec fuel S

/-- A completed run determines the plain search's output, for any fuel at
least the run's cost. -/
theorem dfsRuns_dfsLoop (n : Nat) (board : Board) (t : Cell) (o : Orient)
    (stack : List (Int × Int)) (vis parts vis2 parts2) (k F : Nat)
    (h : DfsRuns n board t o stack vis parts vis2 parts2 k) (hk : k ≤ F) :
    dfsLoop n board t o F stack vis parts = (vis2, parts2) := by
  have e : F = (F - k) + k := by omega
  rw [dfsLoop_eq_dfsLoopF, e]
  have h2 := h (F - k) []
  rw [List.append_nil] at h2
  rw [h2, dfsLoopF_nil]

/-- A visited reading of `true` pins both indices inside the stored
grid. -/
theorem getVisited_true_bounds (vis : List (List Bool)) (i j : Nat)
    (h : getVisited vis i j = true) :
    i < vis.length ∧ j < (vis.getD i []).length := by
  simp only [getVisited, List.getD_eq_getElem?_getD] at h
  constructor
  · by_contra hi
    push_neg at hi
    rw [List.getElem?_eq_none_iff.mpr hi] at h
    simp at h
  · by_contra hj
    push_neg at hj
    rw [List.getD_eq_getElem?_getD] at hj
    rw [List.getElem?_eq_none_iff.mpr hj] at h
    simp at h

/-- Marking an in-range cell makes it read visited. -/
theorem getVisited_setVisited_self (vis : List (List Bool)) (i j : Nat)
    (hi : i < vis.length) (hj : j < (vis.getD i []).length) :
    getVisited (setVisited vis i j) i j = true := by
  rw [List.getD_eq_getElem?_getD] at hj
  simp only [getVisited, setVisited, List.getD_eq_getElem?_getD]
  rw [List.getElem?_set_self hi, Option.getD_some,
    List.getElem?_set_self hj]
  rfl

/-- Marking one cell leaves every other cell's reading unchanged. -/
theorem getVisited_setVisited_of_ne (vis : List (List Bool))
    (r c i j : Nat) (h : i ≠ r ∨ j ≠ c) :
    getVisited (setVisited vis r c) i j = getVisited vis i j := by
  simp only [getVisited, setVisited, List.getD_eq_getElem?_getD]
  by_cases hir : i = r
  · have hjc : j ≠ c := by tauto
    subst hir
    by_cases hlen : i < vis.length
    · rw [List.getElem?_set_self hlen, Option.getD_some,
        List.getElem?_set_ne (by omega : c ≠ j)]
    · have h1 : (vis.set i ((vis[i]?.getD []).set c true))[i]? = none :=
        List.getElem?_eq_none_iff.mpr (by rw [List.length_set]; omega)
      have h2 : vis[i]? = none := List.getElem?_eq_none_iff.mpr (by omega)
      rw [h1, h2]
  · rw [List.getElem?_set_ne (by omega : r ≠ i)]

/-- Marking never clears a visited reading. -/
theorem getVisited_setVisited_mono (vis : List (List Bool))
    (r c i j : Nat) (h : getVisited vis i j = true) :
    getVisited (setVisited vis r c) i j = true := by
  by_cases hij : i = r ∧ j = c
  · obtain ⟨rfl, rfl⟩ := hij
    obtain ⟨h1, h2⟩ := getVisited_true_bounds vis i j h
    exact getVisited_setVisited_self vis i j h1 h2
  · rw [getVisited_setVisited_of_ne vis r c i j (by tauto)]
    exact h

/-- Marking preserves grid well-formedness. -/
theorem VisWf_setVisited (n : Nat) (vis : List (List Bool)) (r c : Nat)
    (hwf : VisWf n vis) : VisWf n (setVisited vis r c) := by
  obtain ⟨h1, h2⟩ := hwf
  refine ⟨by rw [setVisited, List.length_set, h1], fun i hi => ?_⟩
  by_cases hir : i = r
  · subst hir
    rw [setVisited, List.getD_eq_getElem?_getD,
      List.getElem?_set_self (by omega), Option.getD_some,
      List.length_set]
    exact h2 i hi
  · rw [setVisited, List.getD_eq_getElem?_getD,
      List.getElem?_set_ne (by omega : r ≠ i),
      ← List.getD_eq_getElem?_getD]
    exact h2 i hi

/-- The all-false starting grid is well formed. -/
theorem VisWf_replicate (n : Nat) :
    VisWf n (List.replicate n (List.replicate n false)) := by
  refine ⟨List.length_replicate .., fun i hi => ?_⟩
  rw [List.getD_eq_getElem?_getD, List.getElem?_replicate]
  simp [hi]

/-- Every cell of the all-false starting grid reads unvisited. -/
theorem getVisited_replicate (n i j : Nat) :
    getVisited (List.replicate n (List.replicate n false)) i j = false := by
  simp only [getVisited, List.getD_eq_getElem?_getD,
    List.getElem?_replicate]
  by_cases hi : i < n
  · simp only [hi, if_true, Option.getD_some, List.getElem?_replicate]
    by_cases hj : j < n <;> simp [hj]
  · simp [hi]

/-- Marking a list of rows never clears a visited reading. -/
theorem getVisited_markRows_mono (rows : List Nat) :
    ∀ (vis : List (List Bool)) (c i j : Nat),
      getVisited vis i j = true →
      getVisited (markRows vis rows c) i j = true := by
  induction rows with
  | nil => intro vis c i j h; exact h
  | cons x xs ih =>
    intro vis c i j h
    exact ih (setVisited vis x c) c i j
      (getVisited_setVisited_mono vis x c i j h)

/-- A cell in no marked row (or another column) keeps its reading. -/
theorem getVisited_markRows_of_ne (rows : List Nat) :
    ∀ (vis : List (List Bool)) (c i j : Nat), (i ∉ rows ∨ j ≠ c) →
      getVisited (markRows vis rows c) i j = getVisited vis i j := by
  induction rows with
  | nil => intro vis c i j _; rfl
  | cons x xs ih =>
    intro vis c i j h
    have h1 : i ∉ xs ∨ j ≠ c := by
      rcases h with hm | hc
      · exact Or.inl (fun m => hm (List.mem_cons_of_mem x m))
      · exact Or.inr hc
    have h2 : i ≠ x ∨ j ≠ c := by
      rcases h with hm | hc
      · exact Or.inl (fun e => hm (e ▸ List.mem_cons_self x xs))
      · exact Or.inr hc
    show getVisited (markRows (setVisited vis x c) xs c) i j = _
    rw [ih (setVisited vis x c) c i j h1,
      getVisited_setVisited_of_ne vis x c i j h2]

/-- Marking a list of rows preserves grid well-formedness. -/
theorem VisWf_markRows (n : Nat) (rows : List Nat) :
    ∀ (vis : List (List Bool)) (c : Nat), VisWf n vis →
      VisWf n (markRows vis rows c) := by
  induction rows with
  | nil => intro vis c h; exact h
  | cons x xs ih =>
    intro vis c h
    exact ih (setVisited vis x c) c (VisWf_setVisited n vis x c h)

/-- Exact reading of a grid after marking a list of in-range rows of one
in-range column: a cell reads visited exactly when it was marked now or
read visited before. -/
theorem getVisited_markRows_iff (n : Nat) (rows : List Nat) :
    ∀ (vis : List (List Bool)) (c i j : Nat), VisWf n vis → c < n →
      (∀ x ∈ rows, x < n) →
      (getVisited (markRows vis rows c) i j = true ↔
        ((i ∈ rows ∧ j = c) ∨ getVisited vis i j = true)) := by
  induction rows with
  | nil => intro vis c i j _ _ _; simp [markRows]
  | cons x xs ih =>
    intro vis c i j hwf hc hrows
    show getVisited (markRows (setVisited vis x c) xs c) i j = true ↔ _
    rw [ih (setVisited vis x c) c i j (VisWf_setVisited n vis x c hwf) hc
      (fun y hy => hrows y (List.mem_cons_of_mem x hy))]
    constructor
    · rintro (⟨hm, rfl⟩ | hv)
      · exact Or.inl ⟨List.mem_cons_of_mem x hm, rfl⟩
      · by_cases hx : i = x ∧ j = c
        · exact Or.inl ⟨by rw [hx.1]; exact List.mem_cons_self x xs, hx.2⟩
        · rw [getVisited_setVisited_of_ne vis x c i j (by tauto)] at hv
          exact Or.inr hv
    · intro h
      rcases h with h | hv
      · obtain ⟨hm, hjc⟩ := h
        rcases List.mem_cons.mp hm with hix | hm2
        · refine Or.inr ?_
          rw [hjc, hix]
          refine getVisited_setVisited_self vis x c ?_ ?_
          · rw [hwf.1]; exact hrows x (List.mem_cons_self x xs)
          · rw [hwf.2 x (hrows x (List.mem_cons_self x xs))]; exact hc
        · exact Or.inl ⟨hm2, hjc⟩
      · exact Or.inr (getVisited_setVisited_mono vis x c i j hv)

/-- The lower run end never exceeds its argument. -/
theorem runLoAux_le (f : Nat → Cell) (t : Cell) :
    ∀ r, runLoAux f t r ≤ r := by
  intro r
  induction r with
  | zero => exact Nat.le_refl 0
  | succ r ih =>
    rw [runLoAux]
    split
    · omega
    · omega

/-- Every cell between the lower run end and the seed carries `t`. -/
theorem runLoAux_run (f : Nat → Cell) (t : Cell) :
    ∀ r, f r = t → ∀ i, runLoAux f t r ≤ i → i ≤ r → f i = t := by
  intro r
  induction r with
  | zero =>
    intro h i h1 h2
    have hz : i = 0 := by omega
    rw [hz]; exact h
  | succ r ih =>
    intro h i h1 h2
    rw [runLoAux] at h1
    by_cases hf : f r = t
    · rw [if_pos hf] at h1
      by_cases hir : i = r + 1
      · rw [hir]; exact h
      · exact ih hf i h1 (by omega)
    · rw [if_neg hf] at h1
      have hir : i = r + 1 := by omega
      rw [hir]; exact h

/-- The cell below the lower run end (when any) does not carry `t`. -/
theorem runLoAux_bound (f : Nat → Cell) (t : Cell) :
    ∀ r, runLoAux f t r = 0 ∨ f (runLoAux f t r - 1) ≠ t := by
  intro r
  induction r with
  | zero => exact Or.inl rfl
  | succ r ih =>
    rw [runLoAux]
    by_cases hf : f r = t
    · rw [if_pos hf]; exact ih
    · rw [if_neg hf]
      exact Or.inr (by simpa using hf)

/-- The upper run end is at least its argument. -/
theorem runHiAux_ge (f : Nat → Cell) (t : Cell) :
    ∀ fuel r, r ≤ runHiAux f t fuel r := by
  intro fuel
  induction fuel with
  | zero => intro r; exact Nat.le_refl r
  | succ fuel ih =>
    intro r
    rw [runHiAux]
    split
    · exact Nat.le_trans (by omega) (ih (r + 1))
    · exact Nat.le_refl r

/-- The upper run end is bounded by argument plus fuel. -/
theorem runHiAux_le (f : Nat → Cell) (t : Cell) :
    ∀ fuel r, runHiAux f t fuel r ≤ r + fuel := by
  intro fuel
  induction fuel with
  | zero => intro r; rw [runHiAux]; omega
  | succ fuel ih =>
    intro r
    rw [runHiAux]
    split
    · exact Nat.le_trans (ih (r + 1)) (by omega)
    · omega

/-- Every cell between the seed and the upper run end carries `t`. -/
theorem runHiAux_run (f : Nat → Cell) (t : Cell) :
    ∀ fuel r, f r = t → ∀ i, r ≤ i → i ≤ runHiAux f t fuel r →
      f i = t := by
  intro fuel
  induction fuel with
  | zero =>
    intro r h i h1 h2
    rw [runHiAux] at h2
    have hir : i = r := by omega
    rw [hir]; exact h
  | succ fuel ih =>
    intro r h i h1 h2
    rw [runHiAux] at h2
    by_cases hf : f (r + 1) = t
    · rw [if_pos hf] at h2
      by_cases hir : i = r
      · rw [hir]; exact h
      · exact ih (r + 1) hf i (by omega) h2
    · rw [if_neg hf] at h2
      have hir : i = r := by omega
      rw [hir]; exact h

/-- The upper walk stops at fuel exhaustion or at a non-`t` cell. -/
theorem runHiAux_bound (f : Nat → Cell) (t : Cell) :
    ∀ fuel r, runHiAux f t fuel r = r + fuel ∨
      f (runHiAux f t fuel r + 1) ≠ t := by
  intro fuel
  induction fuel with
  | zero => intro r; exact Or.inl (by rw [runHiAux]; omega)
  | succ fuel ih =>
    intro r
    rw [runHiAux]
    by_cases hf : f (r + 1) = t
    · rw [if_pos hf]
      rcases ih (r + 1) with h | h
      · exact Or.inl (by omega)
      · exact Or.inr h
    · rw [if_neg hf]
      exact Or.inr hf

/-- The discovery list of a run holds exactly the run's indices. -/
theorem mem_runCells (lo hi x0 i : Nat) (h1 : lo ≤ x0) (h2 : x0 ≤ hi) :
    i ∈ runCells lo hi x0 ↔ (lo ≤ i ∧ i ≤ hi) := by
  simp only [runCells, List.cons_append, List.mem_cons, List.mem_append,
    List.mem_reverse, List.mem_range'_1]
  omega

/-- The discovery list of a run has the run's cell count. -/
theorem length_runCells (lo hi x0 : Nat) (h1 : lo ≤ x0) (h2 : x0 ≤ hi) :
    (runCells lo hi x0).length = hi + 1 - lo := by
  simp only [runCells, List.cons_append, List.length_cons,
    List.length_append, List.length_reverse, List.length_range']
  omega

/-- A left fold of `min` never exceeds its seed. -/
theorem foldl_min_le_init (l : List Nat) :
    ∀ a, l.foldl min a ≤ a := by
  induction l with
  | nil => intro a; exact Nat.le_refl a
  | cons x xs ih =>
    intro a
    exact Nat.le_trans (ih (min a x)) (Nat.min_le_left a x)

/-- A left fold of `min` never exceeds any list element. -/
theorem foldl_min_le_mem (l : List Nat) :
    ∀ a x, x ∈ l → l.foldl min a ≤ x := by
  induction l with
  | nil => intro a x hx; cases hx
  | cons y ys ih =>
    intro a x hx
    rcases List.mem_cons.mp hx with rfl | hx2
    · exact Nat.le_trans (foldl_min_le_init ys (min a x))
        (Nat.min_le_right a x)
    · exact ih (min a y) x hx2

/-- A common lower bound of the seed and the list bounds the fold. -/
theorem le_foldl_min (l : List Nat) :
    ∀ a b, b ≤ a → (∀ x ∈ l, b ≤ x) → b ≤ l.foldl min a := by
  induction l with
  | nil => intro a b h _; exact h
  | cons y ys ih =>
    intro a b h hl
    exact ih (min a y) b (Nat.le_min.mpr ⟨h, hl y (List.mem_cons_self y ys)⟩)
      (fun x hx => hl x (List.mem_cons_of_mem y hx))

/-- A left fold of `max` is at least its seed. -/
theorem foldl_max_ge_init (l : List Nat) :
    ∀ a, a ≤ l.foldl max a := by
  induction l with
  | nil => intro a; exact Nat.le_refl a
  | cons x xs ih =>
    intro a
    exact Nat.le_trans (Nat.le_max_left a x) (ih (max a x))

/-- A left fold of `max` is at least any list element. -/
theorem foldl_max_ge_mem (l : List Nat) :
    ∀ a x, x ∈ l → x ≤ l.foldl max a := by
  induction l with
  | nil => intro a x hx; cases hx
  | cons y ys ih =>
    intro a x hx
    rcases List.mem_cons.mp hx with rfl | hx2
    · exact Nat.le_trans (Nat.le_max_right a x)
        (foldl_max_ge_init ys (max a x))
    · exact ih (max a y) x hx2

/-- A common upper bound of the seed and the list bounds the fold. -/
theorem foldl_max_le (l : List Nat) :
    ∀ a b, a ≤ b → (∀ x ∈ l, x ≤ b) → l.foldl max a ≤ b := by
  induction l with
  | nil => intro a b h _; exact h
  | cons y ys ih =>
    intro a b h hl
    exact ih (max a y) b
      (Nat.max_le.mpr ⟨h, hl y (List.mem_cons_self y ys)⟩)
      (fun x hx => hl x (List.mem_cons_of_mem y hx))

/-- Folding `fun m _ => min m a` from `a` stays `a`. -/
theorem foldl_min_const (l : List Nat) (a : Nat) :
    l.foldl (fun m _ => min m a) a = a := by
  induction l with
  | nil => rfl
  | cons x xs ih => simpa [Nat.min_self] using ih

/-- Folding `fun m _ => max m a` from `a` stays `a`. -/
theorem foldl_max_const (l : List Nat) (a : Nat) :
    l.foldl (fun m _ => max m a) a = a := by
  induction l with
  | nil => rfl
  | cons x xs ih => simpa [Nat.max_self] using ih

/-- Two maximal `t`-runs of one line sharing an index coincide. -/
theorem maxRun_unique (f : Nat → Cell) (t : Cell) (n : Nat)
    (lo1 hi1 lo2 hi2 x : Nat) (hh1 : hi1 < n) (hh2 : hi2 < n)
    (r1 : ∀ i, lo1 ≤ i → i ≤ hi1 → f i = t)
    (b1lo : lo1 = 0 ∨ f (lo1 - 1) ≠ t)
    (b1hi : hi1 + 1 = n ∨ f (hi1 + 1) ≠ t)
    (r2 : ∀ i, lo2 ≤ i → i ≤ hi2 → f i = t)
    (b2lo : lo2 = 0 ∨ f (lo2 - 1) ≠ t)
    (b2hi : hi2 + 1 = n ∨ f (hi2 + 1) ≠ t)
    (hx1 : lo1 ≤ x) (hx1b : x ≤ hi1) (hx2 : lo2 ≤ x) (hx2b : x ≤ hi2) :
    lo1 = lo2 ∧ hi1 = hi2 := by
  constructor
  · by_contra hne
    rcases Nat.lt_or_ge lo1 lo2 with hlt | hge
    · have hm : f (lo2 - 1) = t := r1 (lo2 - 1) (by omega) (by omega)
      rcases b2lo with h0 | hb
      · omega
      · exact hb hm
    · have hlt : lo2 < lo1 := by omega
      have hm : f (lo1 - 1) = t := r2 (lo1 - 1) (by omega) (by omega)
      rcases b1lo with h0 | hb
      · omega
      · exact hb hm
  · by_contra hne
    rcases Nat.lt_or_ge hi1 hi2 with hlt | hge
    · have hm : f (hi1 + 1) = t := r2 (hi1 + 1) (by omega) (by omega)
      rcases b1hi with h0 | hb
      · omega
      · exact hb hm
    · have hlt : hi2 < hi1 := by omega
      have hm : f (hi2 + 1) = t := r1 (hi2 + 1) (by omega) (by omega)
      rcases b2hi with h0 | hb
      · omega
      · exact hb hm

/-- Every cell of the row-major cell list is inside the grid. -/
theorem mem_cellList (n : Nat) (rc : Nat × Nat) (h : rc ∈ cellList n) :
    rc.1 < n ∧ rc.2 < n := by
  simp only [cellList, List.mem_flatMap, List.mem_map,
    List.mem_range] at h
  obtain ⟨r, hr, c, hc, hrc⟩ := h
  rw [← hrc]
  exact ⟨hr, hc⟩

/-- Marking a list of columns never clears a visited reading. -/
theorem getVisited_markCols_mono (cols : List Nat) :
    ∀ (vis : List (List Bool)) (r i j : Nat),
      getVisited vis i j = true →
      getVisited (markCols vis r cols) i j = true := by
  induction cols with
  | nil => intro vis r i j h; exact h
  | cons x xs ih =>
    intro vis r i j h
    exact ih (setVisited vis r x) r i j
      (getVisited_setVisited_mono vis r x i j h)

/-- A cell in no marked column (or another row) keeps its reading. -/
theorem getVisited_markCols_of_ne (cols : List Nat) :
    ∀ (vis : List (List Bool)) (r i j : Nat), (i ≠ r ∨ j ∉ cols) →
      getVisited (markCols vis r cols) i j = getVisited vis i j := by
  induction cols with
  | nil => intro vis r i j _; rfl
  | cons x xs ih =>
    intro vis r i j h
    have h1 : i ≠ r ∨ j ∉ xs := by
      rcases h with hr | hm
      · exact Or.inl hr
      · exact Or.inr (fun m => hm (List.mem_cons_of_mem x m))
    have h2 : i ≠ r ∨ j ≠ x := by
      rcases h with hr | hm
      · exact Or.inl hr
      · exact Or.inr (fun e => hm (e ▸ List.mem_cons_self x xs))
    show getVisited (markCols (setVisited vis r x) r xs) i j = _
    rw [ih (setVisited vis r x) r i j h1,
      getVisited_setVisited_of_ne vis r x i j h2]

/-- Marking a list of columns preserves grid well-formedness. -/
theorem VisWf_markCols (n : Nat) (cols : List Nat) :
    ∀ (vis : List (List Bool)) (r : Nat), VisWf n vis →
      VisWf n (markCols vis r cols) := by
  induction cols with
  | nil => intro vis r h; exact h
  | cons x xs ih =>
    intro vis r h
    exact ih (setVisited vis r x) r (VisWf_setVisited n vis r x h)

/-- Exact reading after marking a list of in-range columns of one
in-range row. -/
theorem getVisited_markCols_iff (n : Nat) (cols : List Nat) :
    ∀ (vis : List (List Bool)) (r i j : Nat), VisWf n vis → r < n →
      (∀ x ∈ cols, x < n) →
      (getVisited (markCols vis r cols) i j = true ↔
        ((i = r ∧ j ∈ cols) ∨ getVisited vis i j = true)) := by
  induction cols with
  | nil => intro vis r i j _ _ _; simp [markCols]
  | cons x xs ih =>
    intro vis r i j hwf hr hcols
    show getVisited (markCols (setVisited vis r x) r xs) i j = true ↔ _
    rw [ih (setVisited vis r x) r i j (VisWf_setVisited n vis r x hwf) hr
      (fun y hy => hcols y (List.mem_cons_of_mem x hy))]
    constructor
    · rintro (⟨rfl, hm⟩ | hv)
      · exact Or.inl ⟨rfl, List.mem_cons_of_mem x hm⟩
      · by_cases hx : i = r ∧ j = x
        · exact Or.inl ⟨hx.1, by rw [hx.2]; exact List.mem_cons_self x xs⟩
        · rw [getVisited_setVisited_of_ne vis r x i j (by tauto)] at hv
          exact Or.inr hv
    · intro h
      rcases h with h | hv
      · obtain ⟨hir, hm⟩ := h
        rcases List.mem_cons.mp hm with hjx | hm2
        · refine Or.inr ?_
          rw [hir, hjx]
          refine getVisited_setVisited_self vis r x ?_ ?_
          · rw [hwf.1]; exact hr
          · rw [hwf.2 r hr]; exact hcols x (List.mem_cons_self x xs)
        · exact Or.inl ⟨hir, hm2⟩
      · exact Or.inr (getVisited_setVisited_mono vis r x i j hv)

/-- Claim C1: the spec requires that a vertical car whose topmost cell is
at row 0 is rejected with `OutOfBounds` when moved up and that the grid
stays unchanged.  The code has no bounds check: on `boardB` (vertical car
at (0,2)-(1,2)) `_move_up(1)` succeeds, Python's index `-1` wraps, and the
car's marker is written into row 4 of the changed grid. -/
theorem C1_move_up_at_row_zero_wraps :
    Game.move_up gameB 1 = some { gameB with board := boardB_after } ∧
    getCell boardB_after 4 2 = Cell.v ∧
    boardB_after ≠ gameB.board := by
  refine ⟨by decide, rfl, by decide⟩

/-- Claim C2: the spec requires a horizontal car to reject the direction
up (misaligned orientation) with no mutation.  The code's `_move_up`
happily moves the initial board's horizontal car (car 2, at (4,3)-(4,4))
one row up, mutating the grid. -/
theorem C2_move_up_moves_horizontal_car :
    pyGetList gameA.cars (2 - 1) =
      some (Car.make (4, 3) (4, 4) Orient.horizontal) ∧
    Game.move_up gameA 2 = some { gameA with board := boardA_up2 } ∧
    boardA_up2 ≠ gameA.board := by
  refine ⟨by decide, by decide, by decide⟩

/-- Claim C3: the spec requires a move into cells occupied by a different
car to be rejected (blocked-by-car) with no mutation.  On `boardC3` the
vertical car (2,2)-(3,2) sits directly below the horizontal car's cell
(1,2); `_move_up(2)` succeeds anyway and writes the vertical marker over
that occupied cell. -/
theorem C3_move_up_overwrites_other_car :
    getCell gameC3.board 1 2 = Cell.h ∧
    pyGetList gameC3.cars (1 - 1) =
      some (Car.make (1, 2) (1, 3) Orient.horizontal) ∧
    pyGetList gameC3.cars (2 - 1) =
      some (Car.make (2, 2) (3, 2) Orient.vertical) ∧
    Game.move_up gameC3 2 = some { gameC3 with board := boardC3_after } ∧
    getCell boardC3_after 1 2 = Cell.v := by
  refine ⟨rfl, by decide, by decide, by decide, rfl⟩

/-- Claim C4: scanning the 5×5 initial board yields exactly Car0
{(1,2)-(2,2), vertical, length 2} and Car1 {(4,3)-(4,4), horizontal,
length 2}, in this order. -/
theorem C4_scan_initial_board :
    find_cars 5 ESTADO_INICIAL =
      [Car.make (1, 2) (2, 2) Orient.vertical,
       Car.make (4, 3) (4, 4) Orient.horizontal] ∧
    (Car.make (1, 2) (2, 2) Orient.vertical).length = 2 ∧
    (Car.make (4, 3) (4, 4) Orient.horizontal).length = 2 := by
  refine ⟨by decide, rfl, rfl⟩

/-- Claim C5 (counterexample): the claim says each emitted Car is exactly
a maximal 4-connected component of same-type cells.  On `boardC5` the two
cells (0,0) and (1,0) bear the same marker and are 4-adjacent — one
maximal 4-connected component, as the spec-modelled 4-neighbour scan
confirms — yet the code's axis-restricted search emits them as two
distinct cars. -/
theorem C5_counterexample_component_split :
    getCell boardC5 0 0 = Cell.h ∧
    getCell boardC5 1 0 = Cell.h ∧
    spec_scan_groups4 5 boardC5 = [[(0, 0), (1, 0)]] ∧
    find_cars 5 boardC5 =
      [Car.make (0, 0) (0, 0) Orient.horizontal,
       Car.make (1, 0) (1, 0) Orient.horizontal] := by
  refine ⟨rfl, rfl, by decide, by decide⟩

/-- Claim C6: the spec requires a car index outside the collection's range
to raise `InvalidCarIndex` with no mutation and never to move another car.
The collection holds cars 1 and 2; index 0 is outside that range, yet
`_move_up(0)` fetches `self.cars[-1]` by Python wraparound and silently
moves the last car, mutating the grid exactly as `_move_up(2)` does. -/
theorem C6_index_zero_moves_last_car :
    gameA.cars.length = 2 ∧
    Game.move_up gameA 0 = Game.move_up gameA 2 ∧
    Game.move_up gameA 0 = some { gameA with board := boardA_up2 } ∧
    boardA_up2 ≠ gameA.board := by
  refine ⟨by decide, by decide, by decide, by decide⟩

/-- Claim C7: `isSolved` (modelled from the spec, no such function exists
in the source) is a pure read of the grid that returns true iff both cells
of the target region (row 2, columns 3 and 4) carry the horizontal marker;
on the goal board `ESTADO_OBJETIVO`, whose target region is fully covered,
it returns true. -/
theorem C7_isSolved_target_region :
    (∀ b : Board, isSolved b = true ↔
      (getCell b 2 3 = Cell.h ∧ getCell b 2 4 = Cell.h)) ∧
    isSolved ESTADO_OBJETIVO = true := by
  refine ⟨fun b => ?_, rfl⟩
  simp [isSolved]

/-- Claim C8: a successful `_move_up`/`_move_down` mutates only the board:
the cached car collection and the dimension are returned untouched, so the
collection still holds the pre-move coordinates until a rescan. -/
theorem C8_move_mutates_only_board (s : GameState) (car_num : Int)
    (s2 : GameState)
    (hmv : Game.move_up s car_num = some s2 ∨
      Game.move_down s car_num = some s2) :
    s2.cars = s.cars ∧ s2.board_dimension = s.board_dimension := by
  rcases hmv with hp | hp
  · simp only [Game.move_up, Option.bind_eq_some, Option.map_eq_some'] at hp
    obtain ⟨car, hcar, b, hb, heq⟩ := hp
    subst heq
    exact ⟨rfl, rfl⟩
  · simp only [Game.move_down, Option.bind_eq_some, Option.map_eq_some'] at hp
    obtain ⟨car, hcar, b, hb, heq⟩ := hp
    subst heq
    exact ⟨rfl, rfl⟩

/-- Witness for C8: `_move_up(2)` on the scanned initial game succeeds and
leaves the car collection and dimension untouched. -/
theorem C8_move_mutates_only_board_witness :
    ({ gameA with board := boardA_up2 } : GameState).cars = gameA.cars ∧
    ({ gameA with board := boardA_up2 } : GameState).board_dimension =
      gameA.board_dimension :=
  C8_move_mutates_only_board gameA 2 { gameA with board := boardA_up2 }
    (Or.inl (by decide))

/-- Claim C9: rescanning twice with no intervening mutation is idempotent:
the second `find_cars` pass sees the same board and rebuilds the identical
car collection, so the whole state is unchanged. -/
theorem C9_refresh_idempotent (s : GameState) :
    Game.refresh (Game.refresh s) = Game.refresh s := rfl

/-- Claim C10: the public `Game.move` has body `pass`: for every state,
car index and direction it returns Python's `None` and leaves the grid,
the car collection and the dimension exactly as they were. -/
theorem C10_move_is_noop (s : GameState) (car_idx : Int) (d : Direction) :
    Game.move s car_idx d = ((none : Option Unit), s) := rfl

/-- Climbing phase of a vertical search: the cell one below `lo + d`
(that is row `lo+d-1`, or the dead boundary row below `lo` when `d = 0`),
with rows `lo â¦ lo+d-1` carrying `t` and unvisited, the row `lo + d`
above already visited, and the run inextensible below `lo`: the search
collects exactly rows `lo+d-1 â¦ lo`, in descending order. -/
theorem dfsRuns_climb_v (n : Nat) (board : Board) (t : Cell) (c lo : Nat)
    (hc : c < n) (hbound : lo = 0 ∨ getCell board (lo - 1) c ≠ t) :
    ∀ (d : Nat) (vis : List (List Bool)) (parts : List (Nat × Nat)),
      VisWf n vis → lo + d ≤ n →
      (∀ i, lo ≤ i → i < lo + d → getCell board i c = t) →
      (∀ i, lo ≤ i → i < lo + d → getVisited vis i c = false) →
      (d = 0 ∨ getVisited vis (lo + d) c = true) →
      DfsRuns n board t Orient.vertical
        [(((lo + d : Nat) : Int) - 1, (c : Int))] vis parts
        (markRows vis ((List.range' lo d).reverse) c)
        (parts ++ ((List.range' lo d).reverse.map fun i => (i, c)))
        (2 * d + 1) := by
  intro d
  induction d with
  | zero =>
    intro vis parts hwf hn hrun hunvis hup
    have hd : DfsRuns n board t Orient.vertical
        [(((lo : Nat) : Int) - 1, (c : Int))] vis parts vis parts 1 := by
      apply dfsRuns_dead
      by_cases hlo : lo = 0
      · subst hlo
        exact Or.inl (by omega)
      · rcases hbound with h0 | hb
        · exact absurd h0 hlo
        · refine Or.inr (Or.inr ?_)
          have e1 : (((lo : Nat) : Int) - 1).toNat = lo - 1 := by omega
          rw [e1, Int.toNat_natCast]
          exact hb
    simpa [markRows] using hd
  | succ d ih =>
    intro vis parts hwf hn hrun hunvis hup
    have hcell : (((lo + (d + 1) : Nat)) : Int) - 1 = ((lo + d : Nat) : Int) := by
      push_cast
      ring
    rw [hcell]
    have hv : getVisited vis (lo + d) c = false :=
      hunvis (lo + d) (by omega) (by omega)
    have hm : getCell board (lo + d) c = t :=
      hrun (lo + d) (by omega) (by omega)
    have hwf1 : VisWf n (setVisited vis (lo + d) c) :=
      VisWf_setVisited n vis (lo + d) c hwf
    have hself : getVisited (setVisited vis (lo + d) c) (lo + d) c = true := by
      refine getVisited_setVisited_self vis (lo + d) c ?_ ?_
      · rw [hwf.1]; omega
      · rw [hwf.2 (lo + d) (by omega)]; omega
    have h1 : DfsRuns n board t Orient.vertical
        [(((lo + d : Nat) : Int) - 1, (c : Int))]
        (setVisited vis (lo + d) c) (parts ++ [(lo + d, c)])
        (markRows (setVisited vis (lo + d) c)
          ((List.range' lo d).reverse) c)
        ((parts ++ [(lo + d, c)]) ++
          ((List.range' lo d).reverse.map fun i => (i, c)))
        (2 * d + 1) := by
      refine ih (setVisited vis (lo + d) c) (parts ++ [(lo + d, c)]) hwf1
        (by omega) (fun i hi1 hi2 => hrun i hi1 (by omega))
        (fun i hi1 hi2 => by
          rw [getVisited_setVisited_of_ne vis (lo + d) c i c
            (Or.inl (by omega))]
          exact hunvis i hi1 (by omega))
        (Or.inr hself)
    have hupvis : getVisited (markRows (setVisited vis (lo + d) c)
        ((List.range' lo d).reverse) c) (lo + d + 1) c = true := by
      rcases hup with h0 | h0
      · simp at h0
      · exact getVisited_markRows_mono _ _ _ _ _
          (getVisited_setVisited_mono _ _ _ _ _ h0)
    have h2 : DfsRuns n board t Orient.vertical
        [(((lo + d : Nat) : Int) + 1, (c : Int))]
        (markRows (setVisited vis (lo + d) c)
          ((List.range' lo d).reverse) c)
        ((parts ++ [(lo + d, c)]) ++
          ((List.range' lo d).reverse.map fun i => (i, c)))
        (markRows (setVisited vis (lo + d) c)
          ((List.range' lo d).reverse) c)
        ((parts ++ [(lo + d, c)]) ++
          ((List.range' lo d).reverse.map fun i => (i, c)))
        1 := by
      apply dfsRuns_dead
      refine Or.inr (Or.inl ?_)
      have e1 : (((lo + d : Nat) : Int) + 1).toNat = lo + d + 1 := by omega
      rw [e1, Int.toNat_natCast]
      exact hupvis
    have h12 := dfsRuns_append n board t Orient.vertical _ _ _ _ _ _ _ _
      (2 * d + 1) 1 h1 h2
    have hfin := dfsRuns_collect_v n board t (lo + d) c vis parts _ _
      (2 * d + 1 + 1) (by omega) hc hv hm h12
    have heqvis : markRows vis ((List.range' lo (d + 1)).reverse) c =
        markRows (setVisited vis (lo + d) c)
          ((List.range' lo d).reverse) c := by
      rw [List.range'_1_concat, List.reverse_append]
      rfl
    have heqparts : parts ++
        ((List.range' lo (d + 1)).reverse.map fun i => (i, c)) =
        (parts ++ [(lo + d, c)]) ++
          ((List.range' lo d).reverse.map fun i => (i, c)) := by
      rw [List.range'_1_concat, List.reverse_append]
      simp [List.append_assoc]
    rw [heqvis, heqparts]
    exact hfin

/-- Descending phase of a vertical search: from the cell `hi + 1 - e`
(the dead boundary row above `hi` when `e = 0`), with rows
`hi+1-e … hi` carrying `t` and unvisited, the row below already visited,
and the run inextensible above `hi`: the search collects exactly rows
`hi+1-e … hi`, in ascending order. -/
theorem dfsRuns_descend_v (n : Nat) (board : Board) (t : Cell)
    (c hi : Nat) (hc : c < n) (hhi : hi < n)
    (hbound : hi + 1 = n ∨ getCell board (hi + 1) c ≠ t) :
    ∀ (e : Nat) (vis : List (List Bool)) (parts : List (Nat × Nat)),
      VisWf n vis → e ≤ hi →
      (∀ i, hi + 1 - e ≤ i → i ≤ hi → getCell board i c = t) →
      (∀ i, hi + 1 - e ≤ i → i ≤ hi → getVisited vis i c = false) →
      (e = 0 ∨ getVisited vis (hi - e) c = true) →
      DfsRuns n board t Orient.vertical
        [(((hi + 1 - e : Nat) : Int), (c : Int))] vis parts
        (markRows vis (List.range' (hi + 1 - e) e) c)
        (parts ++ ((List.range' (hi + 1 - e) e).map fun i => (i, c)))
        (2 * e + 1) := by
  intro e
  induction e with
  | zero =>
    intro vis parts hwf he hrun hunvis hdown
    have hd : DfsRuns n board t Orient.vertical
        [(((hi + 1 : Nat) : Int), (c : Int))] vis parts vis parts 1 := by
      apply dfsRuns_dead
      rcases hbound with h0 | hb
      · exact Or.inl (by omega)
      · refine Or.inr (Or.inr ?_)
        rw [Int.toNat_natCast, Int.toNat_natCast]
        exact hb
    simpa [markRows] using hd
  | succ e ih =>
    intro vis parts hwf he hrun hunvis hdown
    have hj : hi + 1 - (e + 1) = hi - e := by omega
    rw [hj]
    have hv : getVisited vis (hi - e) c = false :=
      hunvis (hi - e) (by omega) (by omega)
    have hm : getCell board (hi - e) c = t :=
      hrun (hi - e) (by omega) (by omega)
    have hwf1 : VisWf n (setVisited vis (hi - e) c) :=
      VisWf_setVisited n vis (hi - e) c hwf
    have hself : getVisited (setVisited vis (hi - e) c) (hi - e) c
        = true := by
      refine getVisited_setVisited_self vis (hi - e) c ?_ ?_
      · rw [hwf.1]; omega
      · rw [hwf.2 (hi - e) (by omega)]; omega
    have hdownvis : getVisited (setVisited vis (hi - e) c)
        (hi - e - 1) c = true := by
      rcases hdown with h0 | h0
      · simp at h0
      · have he1 : hi - (e + 1) = hi - e - 1 := by omega
        rw [he1] at h0
        exact getVisited_setVisited_mono _ _ _ _ _ h0
    have h1 : DfsRuns n board t Orient.vertical
        [(((hi - e : Nat) : Int) - 1, (c : Int))]
        (setVisited vis (hi - e) c) (parts ++ [(hi - e, c)])
        (setVisited vis (hi - e) c) (parts ++ [(hi - e, c)]) 1 := by
      apply dfsRuns_dead
      refine Or.inr (Or.inl ?_)
      have e1 : (((hi - e : Nat) : Int) - 1).toNat = hi - e - 1 := by omega
      rw [e1, Int.toNat_natCast]
      exact hdownvis
    have h2 : DfsRuns n board t Orient.vertical
        [(((hi + 1 - e : Nat) : Int), (c : Int))]
        (setVisited vis (hi - e) c) (parts ++ [(hi - e, c)])
        (markRows (setVisited vis (hi - e) c)
          (List.range' (hi + 1 - e) e) c)
        ((parts ++ [(hi - e, c)]) ++
          ((List.range' (hi + 1 - e) e).map fun i => (i, c)))
        (2 * e + 1) := by
      refine ih (setVisited vis (hi - e) c) (parts ++ [(hi - e, c)]) hwf1
        (by omega) (fun i hi1 hi2 => hrun i (by omega) hi2)
        (fun i hi1 hi2 => by
          rw [getVisited_setVisited_of_ne vis (hi - e) c i c
            (Or.inl (by omega))]
          exact hunvis i (by omega) hi2)
        (Or.inr hself)
    have hcast : ((hi + 1 - e : Nat) : Int) = ((hi - e : Nat) : Int) + 1 := by
      omega
    rw [hcast] at h2
    have h12 := dfsRuns_append n board t Orient.vertical _ _ _ _ _ _ _ _
      1 (2 * e + 1) h1 h2
    have hfin := dfsRuns_collect_v n board t (hi - e) c vis parts _ _
      (1 + (2 * e + 1)) (by omega) hc hv hm h12
    have heqvis : markRows vis (List.range' (hi - e) (e + 1)) c =
        markRows (setVisited vis (hi - e) c)
          (List.range' (hi + 1 - e) e) c := by
      have hs : hi + 1 - e = (hi - e) + 1 := by omega
      rw [hs]
      rfl
    have heqparts : parts ++
        ((List.range' (hi - e) (e + 1)).map fun i => (i, c)) =
        (parts ++ [(hi - e, c)]) ++
          ((List.range' (hi + 1 - e) e).map fun i => (i, c)) := by
      have hs : hi + 1 - e = (hi - e) + 1 := by omega
      rw [hs]
      show parts ++ ((hi - e, c) ::
        (List.range' (hi - e + 1) e).map (fun i => (i, c))) = _
      rw [List.append_cons]
    rw [heqvis, heqparts,
      (by ring : 2 * (e + 1) + 1 = (1 + (2 * e + 1)) + 1)]
    exact hfin

/-- Marking along an appended row list is marking in two stages. -/
theorem markRows_append (vis : List (List Bool)) (A B : List Nat)
    (c : Nat) :
    markRows vis (A ++ B) c = markRows (markRows vis A c) B c := by
  simp [markRows, List.foldl_append]

/-- Marking along an appended column list is marking in two stages. -/
theorem markCols_append (vis : List (List Bool)) (r : Nat)
    (A B : List Nat) :
    markCols vis r (A ++ B) = markCols (markCols vis r A) r B := by
  simp [markCols, List.foldl_append]

/-- A vertical search seeded anywhere inside a maximal vertical run, on a
grid where the whole run is unvisited, collects exactly the run: the seed,
then the rows below it in descending order, then the rows above it in
ascending order. -/
theorem dfsRuns_seed_v (n : Nat) (board : Board) (t : Cell)
    (c lo hi r0 : Nat) (hc : c < n) (hhi : hi < n)
    (hlo : lo ≤ r0) (hr0 : r0 ≤ hi)
    (hrun : ∀ i, lo ≤ i → i ≤ hi → getCell board i c = t)
    (hloB : lo = 0 ∨ getCell board (lo - 1) c ≠ t)
    (hhiB : hi + 1 = n ∨ getCell board (hi + 1) c ≠ t)
    (vis : List (List Bool)) (parts : List (Nat × Nat))
    (hwf : VisWf n vis)
    (hunvis : ∀ i, lo ≤ i → i ≤ hi → getVisited vis i c = false) :
    DfsRuns n board t Orient.vertical [((r0 : Int), (c : Int))] vis parts
      (markRows vis (runCells lo hi r0) c)
      (parts ++ ((runCells lo hi r0).map fun i => (i, c)))
      (2 * (hi + 1 - lo) + 1) := by
  have hv : getVisited vis r0 c = false := hunvis r0 hlo hr0
  have hm : getCell board r0 c = t := hrun r0 hlo hr0
  have hwf1 : VisWf n (setVisited vis r0 c) :=
    VisWf_setVisited n vis r0 c hwf
  have hself : getVisited (setVisited vis r0 c) r0 c = true := by
    refine getVisited_setVisited_self vis r0 c ?_ ?_
    · rw [hwf.1]; omega
    · rw [hwf.2 r0 (by omega)]; omega
  have hup := dfsRuns_climb_v n board t c lo hc hloB (r0 - lo)
    (setVisited vis r0 c) (parts ++ [(r0, c)]) hwf1 (by omega)
    (fun i hi1 hi2 => hrun i hi1 (by omega))
    (fun i hi1 hi2 => by
      rw [getVisited_setVisited_of_ne vis r0 c i c (Or.inl (by omega))]
      exact hunvis i hi1 (by omega))
    (by
      right
      have hd0 : lo + (r0 - lo) = r0 := by omega
      rw [hd0]
      exact hself)
  have hd0 : lo + (r0 - lo) = r0 := by omega
  rw [hd0] at hup
  have hwf2 : VisWf n (markRows (setVisited vis r0 c)
      ((List.range' lo (r0 - lo)).reverse) c) :=
    VisWf_markRows n ((List.range' lo (r0 - lo)).reverse)
      (setVisited vis r0 c) c hwf1
  have hdown := dfsRuns_descend_v n board t c hi hc hhi hhiB (hi - r0)
    (markRows (setVisited vis r0 c) ((List.range' lo (r0 - lo)).reverse) c)
    ((parts ++ [(r0, c)]) ++
      ((List.range' lo (r0 - lo)).reverse.map fun i => (i, c)))
    hwf2 (by omega)
    (fun i hi1 hi2 => hrun i (by omega) hi2)
    (fun i hi1 hi2 => by
      rw [getVisited_markRows_of_ne _ _ _ _ _ (Or.inl (by
        rw [List.mem_reverse, List.mem_range'_1]
        omega))]
      rw [getVisited_setVisited_of_ne vis r0 c i c (Or.inl (by omega))]
      exact hunvis i (by omega) hi2)
    (by
      right
      have hd1 : hi - (hi - r0) = r0 := by omega
      rw [hd1]
      exact getVisited_markRows_mono _ _ _ _ _ hself)
  have hd1 : hi + 1 - (hi - r0) = r0 + 1 := by omega
  rw [hd1] at hdown
  have hc2 : ((r0 + 1 : Nat) : Int) = ((r0 : Nat) : Int) + 1 := by
    push_cast
    ring
  rw [hc2] at hdown
  have h12 := dfsRuns_append n board t Orient.vertical _ _ _ _ _ _ _ _
    (2 * (r0 - lo) + 1) (2 * (hi - r0) + 1) hup hdown
  have hfin := dfsRuns_collect_v n board t r0 c vis parts _ _
    ((2 * (r0 - lo) + 1) + (2 * (hi - r0) + 1)) (by omega) hc hv hm h12
  have heqvis : markRows vis (runCells lo hi r0) c =
      markRows (markRows (setVisited vis r0 c)
          ((List.range' lo (r0 - lo)).reverse) c)
        (List.range' (r0 + 1) (hi - r0)) c := by
    simp only [runCells]
    rw [markRows_append]
    rfl
  have heqparts : parts ++ ((runCells lo hi r0).map fun i => (i, c)) =
      ((parts ++ [(r0, c)]) ++
        ((List.range' lo (r0 - lo)).reverse.map fun i => (i, c))) ++
        ((List.range' (r0 + 1) (hi - r0)).map fun i => (i, c)) := by
    simp [runCells, List.append_assoc]
  have heqk : 2 * (hi + 1 - lo) + 1 =
      ((2 * (r0 - lo) + 1) + (2 * (hi - r0) + 1)) + 1 := by omega
  rw [heqvis, heqparts, heqk]
  exact hfin

/-- Climbing (leftward) phase of a horizontal search, the mirror of
`dfsRuns_climb_v` along row `r`. -/
theorem dfsRuns_climb_h (n : Nat) (board : Board) (t : Cell) (r lo : Nat)
    (hr : r < n) (hbound : lo = 0 ∨ getCell board r (lo - 1) ≠ t) :
    ∀ (d : Nat) (vis : List (List Bool)) (parts : List (Nat × Nat)),
      VisWf n vis → lo + d ≤ n →
      (∀ j, lo ≤ j → j < lo + d → getCell board r j = t) →
      (∀ j, lo ≤ j → j < lo + d → getVisited vis r j = false) →
      (d = 0 ∨ getVisited vis r (lo + d) = true) →
      DfsRuns n board t Orient.horizontal
        [((r : Int), ((lo + d : Nat) : Int) - 1)] vis parts
        (markCols vis r ((List.range' lo d).reverse))
        (parts ++ ((List.range' lo d).reverse.map fun j => (r, j)))
        (2 * d + 1) := by
  intro d
  induction d with
  | zero =>
    intro vis parts hwf hn hrun hunvis hup
    have hd : DfsRuns n board t Orient.horizontal
        [((r : Int), ((lo : Nat) : Int) - 1)] vis parts vis parts 1 := by
      apply dfsRuns_dead
      by_cases hlo : lo = 0
      · subst hlo
        exact Or.inl (by omega)
      · rcases hbound with h0 | hb
        · exact absurd h0 hlo
        · refine Or.inr (Or.inr ?_)
          have e1 : (((lo : Nat) : Int) - 1).toNat = lo - 1 := by omega
          rw [e1, Int.toNat_natCast]
          exact hb
    simpa [markCols] using hd
  | succ d ih =>
    intro vis parts hwf hn hrun hunvis hup
    have hcell : (((lo + (d + 1) : Nat)) : Int) - 1
        = ((lo + d : Nat) : Int) := by
      push_cast
      ring
    rw [hcell]
    have hv : getVisited vis r (lo + d) = false :=
      hunvis (lo + d) (by omega) (by omega)
    have hm : getCell board r (lo + d) = t :=
      hrun (lo + d) (by omega) (by omega)
    have hwf1 : VisWf n (setVisited vis r (lo + d)) :=
      VisWf_setVisited n vis r (lo + d) hwf
    have hself : getVisited (setVisited vis r (lo + d)) r (lo + d)
        = true := by
      refine getVisited_setVisited_self vis r (lo + d) ?_ ?_
      · rw [hwf.1]; omega
      · rw [hwf.2 r (by omega)]; omega
    have h1 : DfsRuns n board t Orient.horizontal
        [((r : Int), ((lo + d : Nat) : Int) - 1)]
        (setVisited vis r (lo + d)) (parts ++ [(r, lo + d)])
        (markCols (setVisited vis r (lo + d)) r
          ((List.range' lo d).reverse))
        ((parts ++ [(r, lo + d)]) ++
          ((List.range' lo d).reverse.map fun j => (r, j)))
        (2 * d + 1) := by
      refine ih (setVisited vis r (lo + d)) (parts ++ [(r, lo + d)]) hwf1
        (by omega) (fun j hj1 hj2 => hrun j hj1 (by omega))
        (fun j hj1 hj2 => by
          rw [getVisited_setVisited_of_ne vis r (lo + d) r j
            (Or.inr (by omega))]
          exact hunvis j hj1 (by omega))
        (Or.inr hself)
    have hupvis : getVisited (markCols (setVisited vis r (lo + d)) r
        ((List.range' lo d).reverse)) r (lo + d + 1) = true := by
      rcases hup with h0 | h0
      · simp at h0
      · exact getVisited_markCols_mono _ _ _ _ _
          (getVisited_setVisited_mono _ _ _ _ _ h0)
    have h2 : DfsRuns n board t Orient.horizontal
        [((r : Int), ((lo + d : Nat) : Int) + 1)]
        (markCols (setVisited vis r (lo + d)) r
          ((List.range' lo d).reverse))
        ((parts ++ [(r, lo + d)]) ++
          ((List.range' lo d).reverse.map fun j => (r, j)))
        (markCols (setVisited vis r (lo + d)) r
          ((List.range' lo d).reverse))
        ((parts ++ [(r, lo + d)]) ++
          ((List.range' lo d).reverse.map fun j => (r, j)))
        1 := by
      apply dfsRuns_dead
      refine Or.inr (Or.inl ?_)
      have e1 : (((lo + d : Nat) : Int) + 1).toNat = lo + d + 1 := by omega
      rw [e1, Int.toNat_natCast]
      exact hupvis
    have h12 := dfsRuns_append n board t Orient.horizontal _ _ _ _ _ _ _ _
      (2 * d + 1) 1 h1 h2
    have hfin := dfsRuns_collect_h n board t r (lo + d) vis parts _ _
      (2 * d + 1 + 1) hr (by omega) hv hm h12
    have heqvis : markCols vis r ((List.range' lo (d + 1)).reverse) =
        markCols (setVisited vis r (lo + d)) r
          ((List.range' lo d).reverse) := by
      rw [List.range'_1_concat, List.reverse_append]
      rfl
    have heqparts : parts ++
        ((List.range' lo (d + 1)).reverse.map fun j => (r, j)) =
        (parts ++ [(r, lo + d)]) ++
          ((List.range' lo d).reverse.map fun j => (r, j)) := by
      rw [List.range'_1_concat, List.reverse_append]
      simp [List.append_assoc]
    rw [heqvis, heqparts]
    exact hfin

/-- Descending (rightward) phase of a horizontal search, the mirror of
`dfsRuns_descend_v` along row `r`. -/
theorem dfsRuns_descend_h (n : Nat) (board : Board) (t : Cell)
    (r hi : Nat) (hr : r < n) (hhi : hi < n)
    (hbound : hi + 1 = n ∨ getCell board r (hi + 1) ≠ t) :
    ∀ (e : Nat) (vis : List (List Bool)) (parts : List (Nat × Nat)),
      VisWf n vis → e ≤ hi →
      (∀ j, hi + 1 - e ≤ j → j ≤ hi → getCell board r j = t) →
      (∀ j, hi + 1 - e ≤ j → j ≤ hi → getVisited vis r j = false) →
      (e = 0 ∨ getVisited vis r (hi - e) = true) →
      DfsRuns n board t Orient.horizontal
        [((r : Int), ((hi + 1 - e : Nat) : Int))] vis parts
        (markCols vis r (List.range' (hi + 1 - e) e))
        (parts ++ ((List.range' (hi + 1 - e) e).map fun j => (r, j)))
        (2 * e + 1) := by
  intro e
  induction e with
  | zero =>
    intro vis parts hwf he hrun hunvis hdown
    have hd : DfsRuns n board t Orient.horizontal
        [((r : Int), ((hi + 1 : Nat) : Int))] vis parts vis parts 1 := by
      apply dfsRuns_dead
      rcases hbound with h0 | hb
      · exact Or.inl (by omega)
      · refine Or.inr (Or.inr ?_)
        rw [Int.toNat_natCast, Int.toNat_natCast]
        exact hb
    simpa [markCols] using hd
  | succ e ih =>
    intro vis parts hwf he hrun hunvis hdown
    have hj : hi + 1 - (e + 1) = hi - e := by omega
    rw [hj]
    have hv : getVisited vis r (hi - e) = false :=
      hunvis (hi - e) (by omega) (by omega)
    have hm : getCell board r (hi - e) = t :=
      hrun (hi - e) (by omega) (by omega)
    have hwf1 : VisWf n (setVisited vis r (hi - e)) :=
      VisWf_setVisited n vis r (hi - e) hwf
    have hself : getVisited (setVisited vis r (hi - e)) r (hi - e)
        = true := by
      refine getVisited_setVisited_self vis r (hi - e) ?_ ?_
      · rw [hwf.1]; omega
      · rw [hwf.2 r (by omega)]; omega
    have hdownvis : getVisited (setVisited vis r (hi - e)) r
        (hi - e - 1) = true := by
      rcases hdown with h0 | h0
      · simp at h0
      · have he1 : hi - (e + 1) = hi - e - 1 := by omega
        rw [he1] at h0
        exact getVisited_setVisited_mono _ _ _ _ _ h0
    have h1 : DfsRuns n board t Orient.horizontal
        [((r : Int), ((hi - e : Nat) : Int) - 1)]
        (setVisited vis r (hi - e)) (parts ++ [(r, hi - e)])
        (setVisited vis r (hi - e)) (parts ++ [(r, hi - e)]) 1 := by
      apply dfsRuns_dead
      refine Or.inr (Or.inl ?_)
      have e1 : (((hi - e : Nat) : Int) - 1).toNat = hi - e - 1 := by omega
      rw [e1, Int.toNat_natCast]
      exact hdownvis
    have h2 : DfsRuns n board t Orient.horizontal
        [((r : Int), ((hi + 1 - e : Nat) : Int))]
        (setVisited vis r (hi - e)) (parts ++ [(r, hi - e)])
        (markCols (setVisited vis r (hi - e)) r
          (List.range' (hi + 1 - e) e))
        ((parts ++ [(r, hi - e)]) ++
          ((List.range' (hi + 1 - e) e).map fun j => (r, j)))
        (2 * e + 1) := by
      refine ih (setVisited vis r (hi - e)) (parts ++ [(r, hi - e)]) hwf1
        (by omega) (fun j hj1 hj2 => hrun j (by omega) hj2)
        (fun j hj1 hj2 => by
          rw [getVisited_setVisited_of_ne vis r (hi - e) r j
            (Or.inr (by omega))]
          exact hunvis j (by omega) hj2)
        (Or.inr hself)
    have hcast : ((hi + 1 - e : Nat) : Int) = ((hi - e : Nat) : Int) + 1 := by
      omega
    rw [hcast] at h2
    have h12 := dfsRuns_append n board t Orient.horizontal _ _ _ _ _ _ _ _
      1 (2 * e + 1) h1 h2
    have hfin := dfsRuns_collect_h n board t r (hi - e) vis parts _ _
      (1 + (2 * e + 1)) hr (by omega) hv hm h12
    have heqvis : markCols vis r (List.range' (hi - e) (e + 1)) =
        markCols (setVisited vis r (hi - e)) r
          (List.range' (hi + 1 - e) e) := by
      have hs : hi + 1 - e = (hi - e) + 1 := by omega
      rw [hs]
      rfl
    have heqparts : parts ++
        ((List.range' (hi - e) (e + 1)).map fun j => (r, j)) =
        (parts ++ [(r, hi - e)]) ++
          ((List.range' (hi + 1 - e) e).map fun j => (r, j)) := by
      have hs : hi + 1 - e = (hi - e) + 1 := by omega
      rw [hs]
      show parts ++ ((r, hi - e) ::
        (List.range' (hi - e + 1) e).map (fun j => (r, j))) = _
      rw [List.append_cons]
    rw [heqvis, heqparts,
      (by ring : 2 * (e + 1) + 1 = (1 + (2 * e + 1)) + 1)]
    exact hfin

/-- A horizontal search seeded anywhere inside a maximal horizontal run,
on a grid where the whole run is unvisited, collects exactly the run. -/
theorem dfsRuns_seed_h (n : Nat) (board : Board) (t : Cell)
    (r lo hi c0 : Nat) (hr : r < n) (hhi : hi < n)
    (hlo : lo ≤ c0) (hc0 : c0 ≤ hi)
    (hrun : ∀ j, lo ≤ j → j ≤ hi → getCell board r j = t)
    (hloB : lo = 0 ∨ getCell board r (lo - 1) ≠ t)
    (hhiB : hi + 1 = n ∨ getCell board r (hi + 1) ≠ t)
    (vis : List (List Bool)) (parts : List (Nat × Nat))
    (hwf : VisWf n vis)
    (hunvis : ∀ j, lo ≤ j → j ≤ hi → getVisited vis r j = false) :
    DfsRuns n board t Orient.horizontal [((r : Int), (c0 : Int))] vis parts
      (markCols vis r (runCells lo hi c0))
      (parts ++ ((runCells lo hi c0).map fun j => (r, j)))
      (2 * (hi + 1 - lo) + 1) := by
  have hv : getVisited vis r c0 = false := hunvis c0 hlo hc0
  have hm : getCell board r c0 = t := hrun c0 hlo hc0
  have hwf1 : VisWf n (setVisited vis r c0) :=
    VisWf_setVisited n vis r c0 hwf
  have hself : getVisited (setVisited vis r c0) r c0 = true := by
    refine getVisited_setVisited_self vis r c0 ?_ ?_
    · rw [hwf.1]; omega
    · rw [hwf.2 r (by omega)]; omega
  have hup := dfsRuns_climb_h n board t r lo hr hloB (c0 - lo)
    (setVisited vis r c0) (parts ++ [(r, c0)]) hwf1 (by omega)
    (fun j hj1 hj2 => hrun j hj1 (by omega))
    (fun j hj1 hj2 => by
      rw [getVisited_setVisited_of_ne vis r c0 r j (Or.inr (by omega))]
      exact hunvis j hj1 (by omega))
    (by
      right
      have hd0 : lo + (c0 - lo) = c0 := by omega
      rw [hd0]
      exact hself)
  have hd0 : lo + (c0 - lo) = c0 := by omega
  rw [hd0] at hup
  have hwf2 : VisWf n (markCols (setVisited vis r c0) r
      ((List.range' lo (c0 - lo)).reverse)) :=
    VisWf_markCols n ((List.range' lo (c0 - lo)).reverse)
      (setVisited vis r c0) r hwf1
  have hdown := dfsRuns_descend_h n board t r hi hr hhi hhiB (hi - c0)
    (markCols (setVisited vis r c0) r ((List.range' lo (c0 - lo)).reverse))
    ((parts ++ [(r, c0)]) ++
      ((List.range' lo (c0 - lo)).reverse.map fun j => (r, j)))
    hwf2 (by omega)
    (fun j hj1 hj2 => hrun j (by omega) hj2)
    (fun j hj1 hj2 => by
      rw [getVisited_markCols_of_ne _ _ _ _ _ (Or.inr (by
        rw [List.mem_reverse, List.mem_range'_1]
        omega))]
      rw [getVisited_setVisited_of_ne vis r c0 r j (Or.inr (by omega))]
      exact hunvis j (by omega) hj2)
    (by
      right
      have hd1 : hi - (hi - c0) = c0 := by omega
      rw [hd1]
      exact getVisited_markCols_mono _ _ _ _ _ hself)
  have hd1 : hi + 1 - (hi - c0) = c0 + 1 := by omega
  rw [hd1] at hdown
  have hc2 : ((c0 + 1 : Nat) : Int) = ((c0 : Nat) : Int) + 1 := by
    push_cast
    ring
  rw [hc2] at hdown
  have h12 := dfsRuns_append n board t Orient.horizontal _ _ _ _ _ _ _ _
    (2 * (c0 - lo) + 1) (2 * (hi - c0) + 1) hup hdown
  have hfin := dfsRuns_collect_h n board t r c0 vis parts _ _
    ((2 * (c0 - lo) + 1) + (2 * (hi - c0) + 1)) hr (by omega) hv hm h12
  have heqvis : markCols vis r (runCells lo hi c0) =
      markCols (markCols (setVisited vis r c0) r
          ((List.range' lo (c0 - lo)).reverse)) r
        (List.range' (c0 + 1) (hi - c0)) := by
    simp only [runCells]
    rw [markCols_append]
    rfl
  have heqparts : parts ++ ((runCells lo hi c0).map fun j => (r, j)) =
      ((parts ++ [(r, c0)]) ++
        ((List.range' lo (c0 - lo)).reverse.map fun j => (r, j))) ++
        ((List.range' (c0 + 1) (hi - c0)).map fun j => (r, j)) := by
    simp [runCells, List.append_assoc]
  have heqk : 2 * (hi + 1 - lo) + 1 =
      ((2 * (c0 - lo) + 1) + (2 * (hi - c0) + 1)) + 1 := by omega
  rw [heqvis, heqparts, heqk]
  exact hfin

/-- The car built from a vertical run's discovery list spans exactly the
run: start at its lowest row, end at its highest, in the fixed column. -/
theorem mkCar_runCells_v (c lo hi r0 : Nat) (hlo : lo ≤ r0)
    (hr0 : r0 ≤ hi) :
    mkCarFromParts Orient.vertical
        ((runCells lo hi r0).map fun i => (i, c)) =
      some (Car.make (lo, c) (hi, c) Orient.vertical) := by
  have hshape : (runCells lo hi r0).map (fun i => (i, c)) =
      (r0, c) :: (((List.range' lo (r0 - lo)).reverse ++
        List.range' (r0 + 1) (hi - r0)).map fun i => (i, c)) := by
    simp [runCells]
  set L : List Nat := (List.range' lo (r0 - lo)).reverse ++
    List.range' (r0 + 1) (hi - r0) with hL
  have hmemL : ∀ x, x ∈ L ↔ ((lo ≤ x ∧ x < r0) ∨
      (r0 + 1 ≤ x ∧ x ≤ hi)) := by
    intro x
    rw [hL]
    simp only [List.mem_append, List.mem_reverse, List.mem_range'_1]
    omega
  have h1 : L.foldl (fun m i => min m i) r0 = lo := by
    have hub : L.foldl min r0 ≤ lo := by
      by_cases hcase : lo < r0
      · exact foldl_min_le_mem L r0 lo ((hmemL lo).mpr (by omega))
      · exact Nat.le_trans (foldl_min_le_init L r0) (by omega)
    have hlb : lo ≤ L.foldl min r0 :=
      le_foldl_min L r0 lo (by omega)
        (fun x hx => by have := (hmemL x).mp hx; omega)
    exact Nat.le_antisymm hub hlb
  have h2 : L.foldl (fun m i => max m i) r0 = hi := by
    have hub : L.foldl max r0 ≤ hi :=
      foldl_max_le L r0 hi (by omega)
        (fun x hx => by have := (hmemL x).mp hx; omega)
    have hlb : hi ≤ L.foldl max r0 := by
      by_cases hcase : r0 < hi
      · exact foldl_max_ge_mem L r0 hi ((hmemL hi).mpr (by omega))
      · exact Nat.le_trans (by omega) (foldl_max_ge_init L r0)
    exact Nat.le_antisymm hub hlb
  rw [hshape]
  simp only [mkCarFromParts, List.foldl_map]
  rw [h1, h2, foldl_min_const L c, foldl_max_const L c]

/-- The car built from a horizontal run's discovery list spans exactly
the run: start at its lowest column, end at its highest, in the fixed
row. -/
theorem mkCar_runCells_h (r lo hi c0 : Nat) (hlo : lo ≤ c0)
    (hc0 : c0 ≤ hi) :
    mkCarFromParts Orient.horizontal
        ((runCells lo hi c0).map fun j => (r, j)) =
      some (Car.make (r, lo) (r, hi) Orient.horizontal) := by
  have hshape : (runCells lo hi c0).map (fun j => (r, j)) =
      (r, c0) :: (((List.range' lo (c0 - lo)).reverse ++
        List.range' (c0 + 1) (hi - c0)).map fun j => (r, j)) := by
    simp [runCells]
  set L : List Nat := (List.range' lo (c0 - lo)).reverse ++
    List.range' (c0 + 1) (hi - c0) with hL
  have hmemL : ∀ x, x ∈ L ↔ ((lo ≤ x ∧ x < c0) ∨
      (c0 + 1 ≤ x ∧ x ≤ hi)) := by
    intro x
    rw [hL]
    simp only [List.mem_append, List.mem_reverse, List.mem_range'_1]
    omega
  have h1 : L.foldl (fun m j => min m j) c0 = lo := by
    have hub : L.foldl min c0 ≤ lo := by
      by_cases hcase : lo < c0
      · exact foldl_min_le_mem L c0 lo ((hmemL lo).mpr (by omega))
      · exact Nat.le_trans (foldl_min_le_init L c0) (by omega)
    have hlb : lo ≤ L.foldl min c0 :=
      le_foldl_min L c0 lo (by omega)
        (fun x hx => by have := (hmemL x).mp hx; omega)
    exact Nat.le_antisymm hub hlb
  have h2 : L.foldl (fun m j => max m j) c0 = hi := by
    have hub : L.foldl max c0 ≤ hi :=
      foldl_max_le L c0 hi (by omega)
        (fun x hx => by have := (hmemL x).mp hx; omega)
    have hlb : hi ≤ L.foldl max c0 := by
      by_cases hcase : c0 < hi
      · exact foldl_max_ge_mem L c0 hi ((hmemL hi).mpr (by omega))
      · exact Nat.le_trans (by omega) (foldl_max_ge_init L c0)
    exact Nat.le_antisymm hub hlb
  rw [hshape]
  simp only [mkCarFromParts, List.foldl_map]
  rw [h1, h2, foldl_min_const L r, foldl_max_const L r]

/-- Membership in a vertical run's cell list. -/
theorem mem_map_runCells_v (c lo hi x0 : Nat) (h1 : lo ≤ x0)
    (h2 : x0 ≤ hi) (p : Nat × Nat) :
    p ∈ (runCells lo hi x0).map (fun i => (i, c)) ↔
      (p.2 = c ∧ lo ≤ p.1 ∧ p.1 ≤ hi) := by
  rw [List.mem_map]
  constructor
  · rintro ⟨i, hmem, rfl⟩
    have h := (mem_runCells lo hi x0 i h1 h2).mp hmem
    exact ⟨rfl, h.1, h.2⟩
  · rintro ⟨hp2, hp1, hp1b⟩
    refine ⟨p.1, (mem_runCells lo hi x0 p.1 h1 h2).mpr ⟨hp1, hp1b⟩, ?_⟩
    rw [← hp2]

/-- Membership in a horizontal run's cell list. -/
theorem mem_map_runCells_h (r lo hi x0 : Nat) (h1 : lo ≤ x0)
    (h2 : x0 ≤ hi) (p : Nat × Nat) :
    p ∈ (runCells lo hi x0).map (fun j => (r, j)) ↔
      (p.1 = r ∧ lo ≤ p.2 ∧ p.2 ≤ hi) := by
  rw [List.mem_map]
  constructor
  · rintro ⟨j, hmem, rfl⟩
    have h := (mem_runCells lo hi x0 j h1 h2).mp hmem
    exact ⟨rfl, h.1, h.2⟩
  · rintro ⟨hp1, hp2, hp2b⟩
    refine ⟨p.2, (mem_runCells lo hi x0 p.2 h1 h2).mpr ⟨hp2, hp2b⟩, ?_⟩
    rw [← hp1]

/-- The search cost of one run fits inside the scan's fuel budget. -/
theorem run_cost_le_scanFuel (n lo hi : Nat) (hhi : hi < n) :
    2 * (hi + 1 - lo) + 1 ≤ scanFuel n := by
  have h1 : 2 * (hi + 1 - lo) + 1 ≤ 2 * n + 1 := by omega
  have h2 : 2 * n * 1 ≤ 2 * n * n :=
    Nat.mul_le_mul_left (2 * n) (by omega)
  rw [scanFuel]
  omega


/-- One scan iteration that starts a vertical search on an unvisited
occupied cell preserves the scan invariant: the group it emits is exactly
the maximal vertical run through the seed. -/
theorem scanStep_inv_v (n : Nat) (board : Board)
    (st : List (List Bool) × List (Cell × Orient × List (Nat × Nat)))
    (r c : Nat) (hr : r < n) (hc : c < n) (hinv : ScanInv n board st)
    (hne : getCell board r c ≠ Cell.empty)
    (hunv : getVisited st.1 r c = false)
    (ht : ¬ getCell board r c = Cell.h) :
    ScanInv n board
      ((dfsLoop n board (getCell board r c) Orient.vertical (scanFuel n)
          [((r : Int), (c : Int))] st.1 []).1,
        st.2 ++ [(getCell board r c, Orient.vertical,
          (dfsLoop n board (getCell board r c) Orient.vertical
            (scanFuel n) [((r : Int), (c : Int))] st.1 []).2)]) := by
  obtain ⟨hwf, hgroups, hvisiff⟩ := hinv
  have hseed : getCell board r c = getCell board r c := rfl
  generalize htdef : getCell board r c = t at hne ht ⊢
  set f : Nat → Cell := fun i => getCell board i c with hfdef
  have hft : f r = t := by rw [hfdef]; exact htdef
  set lo := runLoAux f t r with hlodef
  set hi := runHiAux f t (n - 1 - r) r with hhidef
  have hlo_le : lo ≤ r := runLoAux_le f t r
  have hhi_ge : r ≤ hi := runHiAux_ge f t (n - 1 - r) r
  have hhi_lt : hi < n := by
    have := runHiAux_le f t (n - 1 - r) r
    omega
  have hrun_full : ∀ i, lo ≤ i → i ≤ hi → f i = t := by
    intro i h1 h2
    by_cases hcase : i ≤ r
    · exact runLoAux_run f t r hft i h1 hcase
    · exact runHiAux_run f t (n - 1 - r) r hft i (by omega) h2
  have hlo_bound : lo = 0 ∨ f (lo - 1) ≠ t := runLoAux_bound f t r
  have hhi_bound : hi + 1 = n ∨ f (hi + 1) ≠ t := by
    rcases runHiAux_bound f t (n - 1 - r) r with h | h
    · left; omega
    · right; exact h
  have hunvisited : ∀ i, lo ≤ i → i ≤ hi →
      getVisited st.1 i c = false := by
    intro i h1 h2
    by_contra hvis
    have hvis2 : getVisited st.1 i c = true := by
      cases hx : getVisited st.1 i c
      · exact absurd hx hvis
      · rfl
    obtain ⟨g, hgmem, hpin⟩ := (hvisiff i c).mp hvis2
    obtain ⟨tg, og, partsg⟩ := g
    obtain ⟨hgne, hgor, hgmatch⟩ := hgroups (tg, og, partsg) hgmem
    have hgor2 : og =
        (if tg = Cell.h then Orient.horizontal else Orient.vertical) :=
      hgor
    cases og with
    | horizontal =>
      obtain ⟨r2, lo2, hi2, c02, hr2, hhi2, hlo2, hc02, hrun2, hloB2,
        hhiB2, hparts2, hmem2, hlen2, hcar2⟩ := hgmatch
      have hp : (i, c).1 = r2 ∧ lo2 ≤ (i, c).2 ∧ (i, c).2 ≤ hi2 :=
        (hmem2 (i, c)).mp hpin
      have hp1 : i = r2 := hp.1
      have hp2 : lo2 ≤ c := hp.2.1
      have hp3 : c ≤ hi2 := hp.2.2
      have h3 : getCell board r2 c = tg := hrun2 c hp2 hp3
      rw [← hp1] at h3
      have h4 : getCell board i c = t := hrun_full i h1 h2
      have htg : tg = t := h3.symm.trans h4
      rw [htg, if_neg ht] at hgor2
      exact absurd hgor2 (by simp)
    | vertical =>
      obtain ⟨c2, lo2, hi2, r02, hc2, hhi2, hlo2, hr02, hrun2, hloB2,
        hhiB2, hparts2, hmem2, hlen2, hcar2⟩ := hgmatch
      have hp : (i, c).2 = c2 ∧ lo2 ≤ (i, c).1 ∧ (i, c).1 ≤ hi2 :=
        (hmem2 (i, c)).mp hpin
      have hp1 : c2 = c := hp.1.symm
      have hp2 : lo2 ≤ i := hp.2.1
      have hp3 : i ≤ hi2 := hp.2.2
      rw [hp1] at hrun2 hloB2 hhiB2
      have h3 : getCell board i c = tg := hrun2 i hp2 hp3
      have h4 : getCell board i c = t := hrun_full i h1 h2
      have htg : tg = t := h3.symm.trans h4
      rw [htg] at hrun2 hloB2 hhiB2
      obtain ⟨hu1, hu2⟩ := maxRun_unique f t n lo2 hi2 lo hi i hhi2
        hhi_lt hrun2 hloB2 hhiB2 hrun_full hlo_bound hhi_bound
        hp2 hp3 h1 h2
      have hrin : (r, c) ∈ partsg := by
        refine (hmem2 (r, c)).mpr ⟨?_, ?_, ?_⟩
        · exact hp1.symm
        · show lo2 ≤ r
          omega
        · show r ≤ hi2
          omega
      have hcontr : getVisited st.1 r c = true :=
        (hvisiff r c).mpr ⟨(tg, Orient.vertical, partsg), hgmem, hrin⟩
      rw [hcontr] at hunv
      exact absurd hunv (by simp)
  have hseedrun := dfsRuns_seed_v n board t c lo hi r hc hhi_lt hlo_le
    hhi_ge (fun i h1 h2 => hrun_full i h1 h2) hlo_bound hhi_bound
    st.1 [] hwf hunvisited
  have hdfs : dfsLoop n board t Orient.vertical (scanFuel n)
      [((r : Int), (c : Int))] st.1 [] =
      (markRows st.1 (runCells lo hi r) c,
        (runCells lo hi r).map fun i => (i, c)) := by
    have hrun := dfsRuns_dfsLoop n board t Orient.vertical
      [((r : Int), (c : Int))] st.1 []
      (markRows st.1 (runCells lo hi r) c)
      ([] ++ ((runCells lo hi r).map fun i => (i, c)))
      (2 * (hi + 1 - lo) + 1) (scanFuel n) hseedrun
      (run_cost_le_scanFuel n lo hi hhi_lt)
    simpa using hrun
  rw [hdfs]
  have hrowslt : ∀ x ∈ runCells lo hi r, x < n := by
    intro x hx
    have := (mem_runCells lo hi r x hlo_le hhi_ge).mp hx
    omega
  refine ⟨VisWf_markRows n (runCells lo hi r) st.1 c hwf, ?_, ?_⟩
  · intro g hg
    rcases List.mem_append.mp hg with hg1 | hg2
    · exact hgroups g hg1
    · have hgeq : g = (t, Orient.vertical,
          (runCells lo hi r).map fun i => (i, c)) := by
        simpa using hg2
      rw [hgeq]
      refine ⟨hne, by simp [if_neg ht], ?_⟩
      refine ⟨c, lo, hi, r, hc, hhi_lt, hlo_le, hhi_ge,
        (fun i h1 h2 => hrun_full i h1 h2), hlo_bound, hhi_bound, rfl,
        (fun p => mem_map_runCells_v c lo hi r hlo_le hhi_ge p), ?_, ?_⟩
      · rw [List.length_map]
        exact length_runCells lo hi r hlo_le hhi_ge
      · exact mkCar_runCells_v c lo hi r hlo_le hhi_ge
  · intro i j
    rw [getVisited_markRows_iff n (runCells lo hi r) st.1 c i j hwf hc
      hrowslt]
    constructor
    · rintro (⟨hm, hjc⟩ | hv)
      · refine ⟨(t, Orient.vertical,
          (runCells lo hi r).map fun k => (k, c)), by simp, ?_⟩
        rw [hjc]
        exact List.mem_map_of_mem (fun k => (k, c)) hm
      · obtain ⟨g, hgmem, hpin⟩ := (hvisiff i j).mp hv
        exact ⟨g, List.mem_append.mpr (Or.inl hgmem), hpin⟩
    · rintro ⟨g, hgmem, hpin⟩
      rcases List.mem_append.mp hgmem with hg1 | hg2
      · exact Or.inr ((hvisiff i j).mpr ⟨g, hg1, hpin⟩)
      · have hgeq : g = (t, Orient.vertical,
            (runCells lo hi r).map fun k => (k, c)) := by
          simpa using hg2
        rw [hgeq] at hpin
        have hp := (mem_map_runCells_v c lo hi r hlo_le hhi_ge
          (i, j)).mp hpin
        refine Or.inl ⟨?_, hp.1⟩
        exact (mem_runCells lo hi r i hlo_le hhi_ge).mpr
          ⟨hp.2.1, hp.2.2⟩

/-- One scan iteration that starts a horizontal search on an unvisited
occupied cell preserves the scan invariant: the group it emits is exactly
the maximal horizontal run through the seed. -/
theorem scanStep_inv_h (n : Nat) (board : Board)
    (st : List (List Bool) × List (Cell × Orient × List (Nat × Nat)))
    (r c : Nat) (hr : r < n) (hc : c < n) (hinv : ScanInv n board st)
    (hne : getCell board r c ≠ Cell.empty)
    (hunv : getVisited st.1 r c = false)
    (ht : getCell board r c = Cell.h) :
    ScanInv n board
      ((dfsLoop n board (getCell board r c) Orient.horizontal (scanFuel n)
          [((r : Int), (c : Int))] st.1 []).1,
        st.2 ++ [(getCell board r c, Orient.horizontal,
          (dfsLoop n board (getCell board r c) Orient.horizontal
            (scanFuel n) [((r : Int), (c : Int))] st.1 []).2)]) := by
  obtain ⟨hwf, hgroups, hvisiff⟩ := hinv
  generalize htdef : getCell board r c = t at hne ht ⊢
  set f : Nat → Cell := fun j => getCell board r j with hfdef
  have hft : f c = t := by rw [hfdef]; exact htdef
  set lo := runLoAux f t c with hlodef
  set hi := runHiAux f t (n - 1 - c) c with hhidef
  have hlo_le : lo ≤ c := runLoAux_le f t c
  have hhi_ge : c ≤ hi := runHiAux_ge f t (n - 1 - c) c
  have hhi_lt : hi < n := by
    have := runHiAux_le f t (n - 1 - c) c
    omega
  have hrun_full : ∀ j, lo ≤ j → j ≤ hi → f j = t := by
    intro j h1 h2
    by_cases hcase : j ≤ c
    · exact runLoAux_run f t c hft j h1 hcase
    · exact runHiAux_run f t (n - 1 - c) c hft j (by omega) h2
  have hlo_bound : lo = 0 ∨ f (lo - 1) ≠ t := runLoAux_bound f t c
  have hhi_bound : hi + 1 = n ∨ f (hi + 1) ≠ t := by
    rcases runHiAux_bound f t (n - 1 - c) c with h | h
    · left; omega
    · right; exact h
  have hunvisited : ∀ j, lo ≤ j → j ≤ hi →
      getVisited st.1 r j = false := by
    intro j h1 h2
    by_contra hvis
    have hvis2 : getVisited st.1 r j = true := by
      cases hx : getVisited st.1 r j
      · exact absurd hx hvis
      · rfl
    obtain ⟨g, hgmem, hpin⟩ := (hvisiff r j).mp hvis2
    obtain ⟨tg, og, partsg⟩ := g
    obtain ⟨hgne, hgor, hgmatch⟩ := hgroups (tg, og, partsg) hgmem
    have hgor2 : og =
        (if tg = Cell.h then Orient.horizontal else Orient.vertical) :=
      hgor
    cases og with
    | vertical =>
      obtain ⟨c2, lo2, hi2, r02, hc2, hhi2, hlo2, hr02, hrun2, hloB2,
        hhiB2, hparts2, hmem2, hlen2, hcar2⟩ := hgmatch
      have hp : (r, j).2 = c2 ∧ lo2 ≤ (r, j).1 ∧ (r, j).1 ≤ hi2 :=
        (hmem2 (r, j)).mp hpin
      have hp1 : j = c2 := hp.1
      have hp2 : lo2 ≤ r := hp.2.1
      have hp3 : r ≤ hi2 := hp.2.2
      have h3 : getCell board r c2 = tg := hrun2 r hp2 hp3
      rw [← hp1] at h3
      have h4 : getCell board r j = t := hrun_full j h1 h2
      have htg : tg = t := h3.symm.trans h4
      rw [htg, if_pos ht] at hgor2
      exact absurd hgor2 (by simp)
    | horizontal =>
      obtain ⟨r2, lo2, hi2, c02, hr2, hhi2, hlo2, hc02, hrun2, hloB2,
        hhiB2, hparts2, hmem2, hlen2, hcar2⟩ := hgmatch
      have hp : (r, j).1 = r2 ∧ lo2 ≤ (r, j).2 ∧ (r, j).2 ≤ hi2 :=
        (hmem2 (r, j)).mp hpin
      have hp1 : r2 = r := hp.1.symm
      have hp2 : lo2 ≤ j := hp.2.1
      have hp3 : j ≤ hi2 := hp.2.2
      rw [hp1] at hrun2 hloB2 hhiB2
      have h3 : getCell board r j = tg := hrun2 j hp2 hp3
      have h4 : getCell board r j = t := hrun_full j h1 h2
      have htg : tg = t := h3.symm.trans h4
      rw [htg] at hrun2 hloB2 hhiB2
      obtain ⟨hu1, hu2⟩ := maxRun_unique f t n lo2 hi2 lo hi j hhi2
        hhi_lt hrun2 hloB2 hhiB2 hrun_full hlo_bound hhi_bound
        hp2 hp3 h1 h2
      have hrin : (r, c) ∈ partsg := by
        refine (hmem2 (r, c)).mpr ⟨?_, ?_, ?_⟩
        · exact hp1.symm
        · show lo2 ≤ c
          omega
        · show c ≤ hi2
          omega
      have hcontr : getVisited st.1 r c = true :=
        (hvisiff r c).mpr ⟨(tg, Orient.horizontal, partsg), hgmem, hrin⟩
      rw [hcontr] at hunv
      exact absurd hunv (by simp)
  have hseedrun := dfsRuns_seed_h n board t r lo hi c hr hhi_lt hlo_le
    hhi_ge (fun j h1 h2 => hrun_full j h1 h2) hlo_bound hhi_bound
    st.1 [] hwf hunvisited
  have hdfs : dfsLoop n board t Orient.horizontal (scanFuel n)
      [((r : Int), (c : Int))] st.1 [] =
      (markCols st.1 r (runCells lo hi c),
        (runCells lo hi c).map fun j => (r, j)) := by
    have hrun := dfsRuns_dfsLoop n board t Orient.horizontal
      [((r : Int), (c : Int))] st.1 []
      (markCols st.1 r (runCells lo hi c))
      ([] ++ ((runCells lo hi c).map fun j => (r, j)))
      (2 * (hi + 1 - lo) + 1) (scanFuel n) hseedrun
      (run_cost_le_scanFuel n lo hi hhi_lt)
    simpa using hrun
  rw [hdfs]
  have hcolslt : ∀ x ∈ runCells lo hi c, x < n := by
    intro x hx
    have := (mem_runCells lo hi c x hlo_le hhi_ge).mp hx
    omega
  refine ⟨VisWf_markCols n (runCells lo hi c) st.1 r hwf, ?_, ?_⟩
  · intro g hg
    rcases List.mem_append.mp hg with hg1 | hg2
    · exact hgroups g hg1
    · have hgeq : g = (t, Orient.horizontal,
          (runCells lo hi c).map fun j => (r, j)) := by
        simpa using hg2
      rw [hgeq]
      refine ⟨hne, by simp [if_pos ht], ?_⟩
      refine ⟨r, lo, hi, c, hr, hhi_lt, hlo_le, hhi_ge,
        (fun j h1 h2 => hrun_full j h1 h2), hlo_bound, hhi_bound, rfl,
        (fun p => mem_map_runCells_h r lo hi c hlo_le hhi_ge p), ?_, ?_⟩
      · rw [List.length_map]
        exact length_runCells lo hi c hlo_le hhi_ge
      · exact mkCar_runCells_h r lo hi c hlo_le hhi_ge
  · intro i j
    rw [getVisited_markCols_iff n (runCells lo hi c) st.1 r i j hwf hr
      hcolslt]
    constructor
    · rintro (⟨hir, hm⟩ | hv)
      · refine ⟨(t, Orient.horizontal,
          (runCells lo hi c).map fun k => (r, k)), by simp, ?_⟩
        rw [hir]
        exact List.mem_map_of_mem (fun k => (r, k)) hm
      · obtain ⟨g, hgmem, hpin⟩ := (hvisiff i j).mp hv
        exact ⟨g, List.mem_append.mpr (Or.inl hgmem), hpin⟩
    · rintro ⟨g, hgmem, hpin⟩
      rcases List.mem_append.mp hgmem with hg1 | hg2
      · exact Or.inr ((hvisiff i j).mpr ⟨g, hg1, hpin⟩)
      · have hgeq : g = (t, Orient.horizontal,
            (runCells lo hi c).map fun k => (r, k)) := by
          simpa using hg2
        rw [hgeq] at hpin
        have hp := (mem_map_runCells_h r lo hi c hlo_le hhi_ge
          (i, j)).mp hpin
        refine Or.inl ⟨hp.1, ?_⟩
        exact (mem_runCells lo hi c j hlo_le hhi_ge).mpr
          ⟨hp.2.1, hp.2.2⟩

/-- One outer scan iteration preserves the scan invariant. -/
theorem scanStep_inv (n : Nat) (board : Board)
    (st : List (List Bool) × List (Cell × Orient × List (Nat × Nat)))
    (rc : Nat × Nat) (hrc : rc ∈ cellList n)
    (hinv : ScanInv n board st) :
    ScanInv n board (scanStep n board st rc) := by
  obtain ⟨hr, hc⟩ := mem_cellList n rc hrc
  obtain ⟨r, c⟩ := rc
  simp only at hr hc
  simp only [scanStep]
  split
  · rename_i h
    obtain ⟨hne, hunv⟩ := h
    by_cases ht : getCell board r c = Cell.h
    · rw [if_pos ht]
      exact scanStep_inv_h n board st r c hr hc hinv hne hunv ht
    · rw [if_neg ht]
      exact scanStep_inv_v n board st r c hr hc hinv hne hunv ht
  · exact hinv

/-- The scan invariant holds after folding the scan over the whole
row-major cell list from the all-false visited grid. -/
theorem scan_inv_final (n : Nat) (board : Board) :
    ScanInv n board ((cellList n).foldl (scanStep n board)
      (List.replicate n (List.replicate n false), [])) := by
  have hfold : ∀ (l : List (Nat × Nat)),
      (∀ rc ∈ l, rc ∈ cellList n) →
      ∀ st, ScanInv n board st →
        ScanInv n board (l.foldl (scanStep n board) st) := by
    intro l
    induction l with
    | nil => intro _ st h; exact h
    | cons x xs ih =>
      intro hsub st h
      exact ih (fun rc hrc => hsub rc (List.mem_cons_of_mem x hrc)) _
        (scanStep_inv n board st x (hsub x (List.mem_cons_self x xs)) h)
  refine hfold (cellList n) (fun rc h => h) _ ⟨VisWf_replicate n, ?_, ?_⟩
  · intro g hg
    simp at hg
  · intro i j
    constructor
    · intro h
      rw [getVisited_replicate] at h
      exact absurd h (by simp)
    · rintro ⟨g, hg, _⟩
      simp at hg

/-- Every group the scan of `Game.find_cars` emits is exactly a maximal
same-marker run along the axis its marker dictates. -/
theorem scan_groups_maxrun (n : Nat) (board : Board) :
    ∀ g ∈ scan_groups n board, MaxRunGroup n board g := by
  intro g hg
  exact (scan_inv_final n board).2.1 g hg

/-- Claim C5 (amended): the scan groups cells by a stack-based flood-fill
that explores only the two neighbours along the axis its marker dictates
(left/right for the horizontal marker, up/down for the vertical one),
restricted to cells bearing the same marker type, so each emitted Car is
exactly a maximal same-marker axis run — not necessarily a maximal
4-connected component: every collected cell bears the group's marker and
lies in the grid (`GroupOk`), and the group's cells are exactly those of
an inextensible same-marker run along its orientation axis, with the
matching cell count and the constructed Car spanning exactly that run
(`MaxRunGroup`). -/
theorem C5_axis_restricted_scan (n : Nat) (board : Board)
    (g : Cell × Orient × List (Nat × Nat)) (hg : g ∈ scan_groups n board) :
    GroupOk n board g ∧ MaxRunGroup n board g :=
  ⟨scan_groups_ok n board g hg, scan_groups_maxrun n board g hg⟩

/-- Witness for C5 (amended): the first group of the initial board's scan,
the vertical car's cells (1,2) and (2,2), is exactly the maximal vertical
run of rows 1\u20132 in column 2. -/
theorem C5_axis_restricted_scan_witness :
    GroupOk 5 ESTADO_INICIAL
      (Cell.v, Orient.vertical, [(1, 2), (2, 2)]) ∧
    MaxRunGroup 5 ESTADO_INICIAL
      (Cell.v, Orient.vertical, [(1, 2), (2, 2)]) :=
  C5_axis_restricted_scan 5 ESTADO_INICIAL
    (Cell.v, Orient.vertical, [(1, 2), (2, 2)]) (by decide)
